import Mathlib

/-!
Verification of the fueled spine trace (`src/trace/implementations/spine_fueled_neu.rs`)
and the flat-container merge batcher (`src/trace/implementations/merge_batcher_flat.rs`)
of this repository.

The embedding instantiates the generic parameters at a representative instance:
keys `K`/values `V` are collapsed into a single `data : Nat` component (their only
role in the modelled code is the total order used for sorting), the timestamp
lattice `T` is `Nat` (with `less_equal` the usual `≤`, `join` given by `max`,
`minimum = 0`, and `Default::default() = 0`), and the difference type `R` is `Int`
(with `plus_equals` given by `+` and `is_zero` given by `= 0`), as in the
repository's examples.  `usize`/`isize` are modelled as `Nat`/`Int`, with the
`as usize` cast made explicit.  Rust panics (`assert!`, `assert_eq!`, `panic!`,
out-of-bounds indexing) are modelled as `Except.error` with a distinct message
per panic site.  Rust `while` loops are rendered as recursions on an explicit
bound (the bound is chosen so that it never expires before the loop's own exit
condition fires); this keeps every definition executable by the kernel.
-/

/-- One update triple `(data, time, diff)`. -/
abbrev Update := Nat × Nat × Int

/-- Rust `usize::next_power_of_two` via a doubling loop: the smallest power of
two greater than or equal to `n` (with `0 → 1`). -/
def npo2Go (n : Nat) : Nat → Nat → Nat
  | 0, p => p
  | fuel + 1, p => if n ≤ p then p else npo2Go n fuel (2 * p)

/-- Rust `usize::next_power_of_two`. -/
def nextPowerOfTwo (n : Nat) : Nat := npo2Go n n 1

/-- Count of trailing zero bits (`usize::trailing_zeros`), by repeated halving. -/
def tzGo : Nat → Nat → Nat
  | 0, _ => 0
  | fuel + 1, n => if n % 2 = 1 ∨ n = 0 then 0 else tzGo fuel (n / 2) + 1

/-- Rust `usize::trailing_zeros` (total: `trailingZeros 0 = 0`, never applied to `0`
by the modelled code since `next_power_of_two` is positive). -/
def trailingZeros (n : Nat) : Nat := tzGo n n

/-- The layer index the spine computes from a count: `n.next_power_of_two().trailing_zeros()`. -/
def layerIndexOf (n : Nat) : Nat := trailingZeros (nextPowerOfTwo n)

/-- Rust `isize::max_value()`. -/
def isizeMax : Int := 2 ^ 63 - 1

/-- Rust `i as usize` for an `isize` value (two's-complement wrap). -/
def usizeOf (i : Int) : Nat := (i % (2 ^ 64 : Int)).toNat

/-- Lexicographic comparison on the `(data, time)` key of an update, as Rust's
`(data, time).cmp(&(data2, time2))`. -/
def cmpU (u v : Update) : Ordering :=
  (compare u.1 v.1).then (compare u.2.1 v.2.1)

/-- Insertion of an update into a `(data, time)`-sorted list (helper for the
modelled batch merge). -/
def insertByKey (u : Update) : List Update → List Update
  | [] => [u]
  | v :: rest => if cmpU u v = .gt then v :: insertByKey u rest else u :: v :: rest

/-- Sort a list of updates by `(data, time)`. -/
def sortByKey (l : List Update) : List Update := l.foldr insertByKey []

/-- Combine adjacent updates with equal `(data, time)` by summing diffs and drop
resulting zeros (the consolidation a batch merge performs). -/
def consolidateGo (cur : Update) : List Update → List Update
  | [] => if cur.2.2 = 0 then [] else [cur]
  | v :: rest =>
    if cmpU cur v = .eq then consolidateGo (cur.1, cur.2.1, cur.2.2 + v.2.2) rest
    else (if cur.2.2 = 0 then [] else [cur]) ++ consolidateGo v rest

/-- Consolidation of a `(data, time)`-sorted run of updates. -/
def consolidate : List Update → List Update
  | [] => []
  | u :: rest => consolidateGo u rest

/-- Modelled from the spec (§4.2): advancing a time to a `since` frontier replaces
`t` by its join with every element of the frontier; over the `Nat` lattice the
join is `max`. -/
def advanceTime (f : List Nat) (t : Nat) : Nat := f.foldl (fun a s => max a s) t

/-- Modelled from the spec (§3, §4.2): the `Batch` contract of `trace::Batch` /
`BatchReader` (not part of the four source files; only its trait surface is used
by the spine).  An immutable run of updates with `lower`/`upper`/`since`
frontiers; the builder `done(lower, upper, since)` with no pushed updates yields
a batch with empty `entries`. -/
structure Batch where
  lower : List Nat
  upper : List Nat
  since : List Nat
  entries : List Update
deriving DecidableEq, Repr

/-- `BatchReader::len`: count of stored updates. -/
def Batch.len (b : Batch) : Nat := b.entries.length

/-- Modelled from the spec (§4.2): `is_empty() -> bool` — true iff `lower == upper`. -/
def Batch.is_empty (b : Batch) : Bool := b.lower == b.upper

/-- Modelled from the spec (§4.2): the result of a completed two-way batch merge —
spanning the composed interval, with times advanced to the supplied compaction
frontier (when one is given) and equal `(data, time)` entries consolidated. -/
def mergeBatches (b1 b2 : Batch) (frontier : Option (List Nat)) : Batch :=
  let es := b1.entries ++ b2.entries
  let es := match frontier with
    | some f => es.map (fun u => (u.1, advanceTime f u.2.1, u.2.2))
    | none => es
  { lower := b1.lower, upper := b2.upper, since := frontier.getD b1.since,
    entries := consolidate (sortByKey es) }

/-- Modelled from the spec (§4.2): the in-progress merge work counter.  `work`
consumes fuel proportional to the records processed; the merge is complete once
all `b1.len + b2.len` records are processed. -/
def mergerWork (remaining : Nat) (fuel : Int) : Nat × Int :=
  let processed := min remaining fuel.toNat
  (remaining - processed, fuel - processed)

/-- `MergeVariant`: an in-progress merge of two batches (with the compaction
frontier and the merger's remaining work), or a completed merge. -/
inductive MergeVariant where
  | inProgress (b1 b2 : Batch) (frontier : Option (List Nat)) (remaining : Nat)
  | complete (b : Option Batch)
deriving DecidableEq, Repr

/-- `MergeVariant::work`: apply some fuel; if fuel is left over afterwards the
merge has completed and the result batch is produced. -/
def MergeVariant.workV (v : MergeVariant) (fuel : Int) : MergeVariant × Int :=
  match v with
  | .inProgress b1 b2 frontier remaining =>
    let wr := mergerWork remaining fuel
    if 0 < wr.2 then (.complete (some (mergeBatches b1 b2 frontier)), wr.2)
    else (.inProgress b1 b2 frontier wr.1, wr.2)
  | .complete x => (.complete x, fuel)

/-- `MergeVariant::complete`: drive the merge with maximal fuel; panics
("Failed to complete a merge!") if even `isize::MAX` fuel does not finish it. -/
def MergeVariant.completeV (v : MergeVariant) : Except String (Option Batch) :=
  match (MergeVariant.workV v isizeMax).1 with
  | .complete b => .ok b
  | _ => .error "Failed to complete a merge!"

/-- `MergeState`: the state of one spine layer. -/
inductive MergeState where
  | vacant
  | single (b : Option Batch)
  | double (v : MergeVariant)
deriving DecidableEq, Repr

/-- `MergeState::len`: the number of actual updates contained in the level. -/
def MergeState.len : MergeState → Nat
  | .single (some b) => b.len
  | .double (.inProgress b1 b2 _ _) => b1.len + b2.len
  | .double (.complete (some b)) => b.len
  | _ => 0

/-- `MergeState::is_vacant`. -/
def MergeState.is_vacant : MergeState → Bool
  | .vacant => true
  | _ => false

/-- `MergeState::non_trivial`. -/
def MergeState.non_trivial : MergeState → Bool
  | .double (.complete none) => false
  | .single none => false
  | .vacant => false
  | _ => true

/-- `MergeState::is_single`. -/
def MergeState.is_single : MergeState → Bool
  | .single _ => true
  | _ => false

/-- `MergeState::is_double`. -/
def MergeState.is_double : MergeState → Bool
  | .double _ => true
  | _ => false

/-- `MergeState::is_complete`. -/
def MergeState.is_complete : MergeState → Bool
  | .double (.complete _) => true
  | _ => false

/-- `MergeState::complete`: immediately complete any merge, returning the batch
(if any); the caller replaces the layer with `Vacant`. -/
def MergeState.completeM : MergeState → Except String (Option Batch)
  | .vacant => .ok none
  | .single b => .ok b
  | .double v => v.completeV

/-- `MergeState::work`: perform bounded work on an in-progress merge. -/
def MergeState.work (m : MergeState) (fuel : Int) : MergeState × Int :=
  match m with
  | .double v =>
    let wv := MergeVariant.workV v fuel
    (.double wv.1, wv.2)
  | m => (m, fuel)

/-- `MergeState::begin_merge`: initiate a merge of two optional batches;
asserts `batch1.upper() == batch2.lower()` when both are present. -/
def MergeState.begin_merge (b1 b2 : Option Batch) (frontier : Option (List Nat)) :
    Except String MergeState :=
  match b1, b2 with
  | some b1, some b2 =>
    if b1.upper = b2.lower then
      .ok (.double (.inProgress b1 b2 frontier (b1.len + b2.len)))
    else .error "begin_merge: batch1.upper == batch2.lower"
  | none, x => .ok (.double (.complete x))
  | x, none => .ok (.double (.complete x))

/-- `MergeState::insert`: insert a batch into the layer, beginning a merge if
the layer already holds one batch; panics on a `Double` layer. -/
def MergeState.insert (m : MergeState) (batch : Option Batch)
    (frontier : Option (List Nat)) : Except String MergeState :=
  match m with
  | .vacant => .ok (.single batch)
  | .single old => MergeState.begin_merge old batch frontier
  | .double _ => .error "Attempted to insert batch into incomplete merge!"

/-- The spine (`Spine<K, V, T, R, B>`) state.  The runtime handles
(`OperatorInfo`, logger, timer) carry no modelled semantics and are dropped; the
optional `Activator` is modelled by the flag `hasActivator` together with the
count `activations` of `activate()` calls made so far. -/
structure Spine where
  advance_frontier : List Nat
  through_frontier : List Nat
  merging : List MergeState
  pending : List Batch
  upper : List Nat
  effort : Nat
  hasActivator : Bool
  activations : Nat
deriving DecidableEq, Repr

/-- `activator.activate()` (a no-op when no activator was supplied). -/
def Spine.activate (s : Spine) : Spine :=
  if s.hasActivator then { s with activations := s.activations + 1 } else s

/-- `Spine::with_effort`: the freshly allocated spine (zero effort is bumped to
one; both frontiers start at `[minimum]` and `upper` at `[Default::default()]`). -/
def Spine.with_effort (effort : Nat) (hasActivator : Bool) : Spine :=
  let effort := if effort = 0 then 1 else effort
  { advance_frontier := [0], through_frontier := [0], merging := [], pending := [],
    upper := [0], effort := effort, hasActivator := hasActivator, activations := 0 }

/-- `Spine::reduced` (early-exit loop over the layers, counting non-trivial ones). -/
def reducedAux : List MergeState → Nat → Bool
  | [], _ => true
  | m :: rest, cnt =>
    if m.is_double then false
    else
      let cnt := if m.non_trivial then cnt + 1 else cnt
      if 1 < cnt then false else reducedAux rest cnt

/-- `Spine::reduced`: true iff no merge is in progress and at most one
non-trivial batch remains. -/
def Spine.reduced (s : Spine) : Bool := reducedAux s.merging 0

/-- The `while self.merging.len() <= index { push Vacant }` padding. -/
def padMerging (ms : List MergeState) (index : Nat) : List MergeState :=
  ms ++ List.replicate (index + 1 - ms.length) .vacant

/-- `Spine::insert_at`: insert a batch at a specific layer (padding with
`Vacant` first); panics if the layer is `Double`. -/
def Spine.insert_at (batch : Option Batch) (index : Nat) (s : Spine) :
    Except String Spine :=
  let merging := padMerging s.merging index
  match MergeState.insert (merging.getD index .vacant) batch (some s.advance_frontier) with
  | .error e => .error e
  | .ok m => .ok { s with merging := merging.set index m }

/-- The body of one iteration of the `apply_fuel` loop at layer `i`: work on the
layer with a private copy of the fuel budget, then promote a completed merge to
layer `i + 1`. -/
def Spine.layerStep (fuel : Int) (s : Spine) (i : Nat) : Except String Spine :=
  let m := ((s.merging.getD i .vacant).work fuel).1
  let s := { s with merging := s.merging.set i m }
  if m.is_complete then
    match m.completeM with
    | .error e => .error e
    | .ok b => Spine.insert_at b (i + 1) { s with merging := s.merging.set i .vacant }
  else .ok s

/-- The `for index in 0..n` loop of `apply_fuel` (the bound `n` is the length of
`merging` snapshotted at loop entry, as in the Rust `for` range). -/
def Spine.applyFuelAux (fuel : Int) : Nat → Nat → Spine → Except String Spine
  | 0, _, s => .ok s
  | r + 1, i, s =>
    match Spine.layerStep fuel s i with
    | .error e => .error e
    | .ok s' => Spine.applyFuelAux fuel r (i + 1) s'

/-- `Spine::apply_fuel`: apply fuel to each merge in progress, in ascending
layer order; fuel is not shared across layers (each layer works on a copy). -/
def Spine.apply_fuel (fuel : Int) (s : Spine) : Except String Spine :=
  Spine.applyFuelAux fuel s.merging.length 0 s

/-- `level.complete()` applied to each of a list of layers, in order
(the `iter_mut().flat_map(|level| level.complete())` collection of `roll_up`,
before `reduceOption` removes the `None`s). -/
def completeLayers : List MergeState → Except String (List (Option Batch))
  | [] => .ok []
  | m :: rest =>
    match m.completeM with
    | .error e => .error e
    | .ok b =>
      match completeLayers rest with
      | .error e => .error e
      | .ok bs => .ok (b :: bs)

/-- The `fold` of `roll_up`: successively begin and immediately complete a merge
of each collected batch with the accumulated roll-up batch. -/
def foldBeginMerge : Option Batch → List Batch → Except String (Option Batch)
  | acc, [] => .ok acc
  | acc, b :: rest =>
    match MergeState.begin_merge (some b) acc none with
    | .error e => .error e
    | .ok ms =>
      match ms.completeM with
      | .error e => .error e
      | .ok acc' => foldBeginMerge acc' rest

/-- `Spine::roll_up`: forcibly complete and fold together all layers below
`index`, insert the folded batch at `index`, and promote once more if that
layer becomes `Double`. -/
def Spine.roll_up (index : Nat) (s : Spine) : Except String Spine :=
  let merging := padMerging s.merging index
  let s := { s with merging := merging }
  if (merging.take index).any (fun m => !m.is_vacant) then
    match completeLayers (merging.take index) with
    | .error e => .error e
    | .ok bs =>
      let s := { s with merging := List.replicate index .vacant ++ merging.drop index }
      match foldBeginMerge none bs.reduceOption with
      | .error e => .error e
      | .ok merge =>
        match Spine.insert_at merge index s with
        | .error e => .error e
        | .ok s =>
          if (s.merging.getD index .vacant).is_double then
            match (s.merging.getD index .vacant).completeM with
            | .error e => .error e
            | .ok merged =>
              Spine.insert_at merged (index + 1) { s with merging := s.merging.set index .vacant }
          else .ok s
  else .ok s

/-- The `tidy_layers` draw-down loop (recursion on the shrinking layer list). -/
def tidyLoop : Nat → List MergeState → List MergeState
  | 0, ms => ms
  | fuel + 1, ms =>
    let length := ms.length
    if layerIndexOf (ms.getD (length - 1) .vacant).len < length - 1 ∧ 1 < length ∧
        (ms.getD (length - 2) .vacant).is_vacant then
      tidyLoop fuel ((ms.dropLast.dropLast) ++ [ms.getD (length - 1) .vacant])
    else ms

/-- `Spine::tidy_layers`: if the largest layer is a `Single`, repeatedly draw it
down over vacant layers below while its size warrants a smaller index.  Indexing
`merging[length-1]` panics when `merging` is empty, as in the source. -/
def Spine.tidy_layers (s : Spine) : Except String Spine :=
  match s.merging.length with
  | 0 => .error "tidy_layers: index out of bounds"
  | _ + 1 =>
    if (s.merging.getD (s.merging.length - 1) .vacant).is_single then
      .ok { s with merging := tidyLoop s.merging.length s.merging }
    else .ok s

/-- `Spine::introduce_batch`: compute the fuel budget `(8 << batch_index) *
effort`, apply it to the merges in progress, roll up the layers below
`batch_index`, insert the batch there, and tidy the largest layers. -/
def Spine.introduce_batch (batch : Option Batch) (batch_index : Nat) (s : Spine) :
    Except String Spine :=
  let fuel : Int := (((8 <<< batch_index) * s.effort : Nat) : Int)
  match Spine.apply_fuel fuel s with
  | .error e => .error e
  | .ok s =>
    match Spine.roll_up batch_index s with
    | .error e => .error e
    | .ok s =>
      match Spine.insert_at batch batch_index s with
      | .error e => .error e
      | .ok s => Spine.tidy_layers s

/-- The `consider_merges` while-loop (the bound is the pending-list length,
which the loop strictly decreases; `introduce_batch` never touches `pending`). -/
def considerMergesLoop : Nat → Spine → Except String Spine
  | 0, s => .ok s
  | fuel + 1, s =>
    match s.pending with
    | [] => .ok s
    | batch :: rest =>
      if s.through_frontier.all (fun t1 => batch.upper.any (fun t2 => t2 ≤ t1)) then
        match Spine.introduce_batch (some batch) (layerIndexOf batch.len)
            { s with pending := rest } with
        | .error e => .error e
        | .ok s =>
          let s := if !s.reduced then s.activate else s
          considerMergesLoop fuel s
      else .ok s

/-- `Spine::consider_merges`: migrate pending batches whose `upper` has been
cleared by the `through_frontier` into the merging layers. -/
def Spine.consider_merges (s : Spine) : Except String Spine :=
  considerMergesLoop s.pending.length s

/-- `Trace::insert` for the spine: assert the batch is not logically empty and
is contiguous with `self.upper`, advance `upper`, enqueue the batch as pending,
and run `consider_merges`. -/
def Spine.insert (batch : Batch) (s : Spine) : Except String Spine :=
  if batch.lower = batch.upper then
    .error "insert: batch.lower != batch.upper"
  else if batch.lower ≠ s.upper then
    .error "insert: batch.lower == self.upper"
  else
    Spine.consider_merges { s with upper := batch.upper, pending := s.pending ++ [batch] }

/-- `Trace::close` for the spine: if `upper` is not empty, build and insert the
final batch `done(&self.upper, &[], &self.upper)`. -/
def Spine.close (s : Spine) : Except String Spine :=
  if s.upper ≠ [] then
    Spine.insert { lower := s.upper, upper := [], since := s.upper, entries := [] } s
  else .ok s

/-- `Trace::exert` for the spine: when not reduced, introduce an empty batch at
layer `(effort as usize).next_power_of_two().trailing_zeros()` and signal the
activator. -/
def Spine.exert (effort : Int) (s : Spine) : Except String Spine :=
  if !s.reduced then
    match Spine.introduce_batch none (layerIndexOf (usizeOf effort)) s with
    | .error e => .error e
    | .ok s => .ok s.activate
  else .ok s

/-- The batches a layer contributes to a `cursor_through` cursor (non-empty
batches only; an `InProgress` layer contributes both inputs). -/
def mergingBatches : MergeState → List Batch
  | .double (.inProgress b1 b2 _ _) =>
    (if !b1.is_empty then [b1] else []) ++ (if !b2.is_empty then [b2] else [])
  | .double (.complete (some b)) => if !b.is_empty then [b] else []
  | .double (.complete none) => []
  | .single (some b) => if !b.is_empty then [b] else []
  | .single none => []
  | .vacant => []

/-- The per-pending-batch step of `cursor_through`: skip empty batches, panic on
a straddling batch (unless `upper` equals the batch's lower), and include the
batch when `upper` dominates its upper frontier. -/
def pendingStep (upper : List Nat) (acc : List Batch) (b : Batch) :
    Except String (List Batch) :=
  if b.is_empty then .ok acc
  else
    let includeLower := upper.all (fun t1 => b.lower.any (fun t2 => t2 ≤ t1))
    let includeUpper := upper.all (fun t1 => b.upper.any (fun t2 => t2 ≤ t1))
    if includeLower ≠ includeUpper ∧ upper ≠ b.lower then
      .error "cursor_through: upper straddles batch"
    else if includeUpper then .ok (acc ++ [b]) else .ok acc

/-- `TraceReader::cursor_through` for the spine: the returned cursor/storage is
modelled by the list of batches it multiplexes (merging layers in reverse order,
then the admitted pending batches). -/
def Spine.cursor_through (s : Spine) (upper : List Nat) :
    Except String (Option (List Batch)) :=
  if s.advance_frontier.length = 0 then
    .error "cursor_through: advance_frontier is empty"
  else if !upper.all (fun t1 => s.through_frontier.any (fun t2 => t2 ≤ t1)) then
    .error "cursor_through: upper not beyond through_frontier"
  else
    match s.pending.foldlM (pendingStep upper) [] with
    | .error e => .error e
    | .ok pendingCursors =>
      .ok (some ((s.merging.reverse.map mergingBatches).flatten ++ pendingCursors))

/-! ## The flat-container merge batcher (`merge_batcher_flat.rs`)

A `FlatStack` chunk is modelled as a `List Update`; its capacity (the uniform
`chunk_capacity`, at least 1 in the source since `BUFFER_SIZE_BYTES / size >= 1`)
is a parameter `cap`.  The stash is modelled as an inexhaustible supply of fresh
empty chunks of capacity `cap` (recycling only affects allocation reuse, not the
values produced). -/

/-- `AntichainRef::less_equal` over the `Nat` order: some element of the
frontier is `less_equal` to `t`. -/
def frontierLE (f : List Nat) (t : Nat) : Bool := f.any (fun x => x ≤ t)

/-- `Antichain::insert` (timely): insert `t` unless an existing element is
`less_equal` to it; when inserted, elements dominated by `t` are retained out. -/
def antichainInsert (f : List Nat) (t : Nat) : List Nat :=
  if f.any (fun x => x ≤ t) then f else f.filter (fun x => !(t ≤ x)) ++ [t]

/-- The accumulator of `FlatcontainerMerger::extract`: the frontier being
built, the flushed output chunks, and the partially filled `ready`/`keep`
chunks. -/
structure ExtractAcc where
  frontier : List Nat
  readied : List (List Update)
  ready : List Update
  kept : List (List Update)
  keep : List Update
deriving DecidableEq, Repr

/-- One update's worth of `extract`: route the update to `keep` (recording its
time in the frontier) when `upper.less_equal(time)`, otherwise to `ready`,
flushing a full chunk to the respective output first. -/
def extractStep (cap : Nat) (upper : List Nat) (acc : ExtractAcc) (u : Update) :
    ExtractAcc :=
  if frontierLE upper u.2.1 then
    let f := antichainInsert acc.frontier u.2.1
    if acc.keep.length = cap ∧ acc.keep ≠ [] then
      { acc with frontier := f, kept := acc.kept ++ [acc.keep], keep := [u] }
    else
      { acc with frontier := f, keep := acc.keep ++ [u] }
  else
    if acc.ready.length = cap ∧ acc.ready ≠ [] then
      { acc with readied := acc.readied ++ [acc.ready], ready := [u] }
    else
      { acc with ready := acc.ready ++ [u] }

/-- `FlatcontainerMerger::extract`: partition every retained update by
`upper.less_equal(time)`, building the frontier from the kept times, and flush
the final partial chunks.  Returns `(frontier, readied, kept)`. -/
def extract (cap : Nat) (merged : List (List Update)) (upper : List Nat)
    (frontier₀ : List Nat) (readied₀ kept₀ : List (List Update)) :
    List Nat × List (List Update) × List (List Update) :=
  let acc := merged.foldl (fun acc buffer => buffer.foldl (extractStep cap upper) acc)
    { frontier := frontier₀, readied := readied₀, ready := [], kept := kept₀, keep := [] }
  let kept := if acc.keep ≠ [] then acc.kept ++ [acc.keep] else acc.kept
  let readied := if acc.ready ≠ [] then acc.readied ++ [acc.ready] else acc.readied
  (acc.frontier, readied, kept)

/-- The inner loop of `FlatcontainerMerger::merge`: merge the two queue heads
while output capacity remains and both queues are non-empty; equal `(data,
time)` keys are combined with `plus_equals` and dropped when the sum is zero.
The bound is the total queue length, which every step strictly decreases. -/
def mergeInner (cap : Nat) : Nat → List Update → List Update → List Update →
    List Update × List Update × List Update
  | 0, q1, q2, result => (q1, q2, result)
  | fuel + 1, q1, q2, result =>
    if result.length < cap then
      match q1, q2 with
      | u1 :: r1, u2 :: r2 =>
        match cmpU u1 u2 with
        | .lt => mergeInner cap fuel r1 (u2 :: r2) (result ++ [u1])
        | .gt => mergeInner cap fuel (u1 :: r1) r2 (result ++ [u2])
        | .eq =>
          let d := u1.2.2 + u2.2.2
          if d = 0 then mergeInner cap fuel r1 r2 result
          else mergeInner cap fuel r1 r2 (result ++ [(u1.1, u1.2.1, d)])
      | _, _ => (q1, q2, result)
    else (q1, q2, result)

/-- The outer loop of `FlatcontainerMerger::merge`: run the inner loop, push the
output chunk when full, and refill an exhausted queue from the next chunk of
its list (so a mid-list empty chunk ends the loop with the list unconsumed, as
in the source).  Returns `(output, result, head1, list1, head2, list2)` at loop
exit. -/
def mergeOuterF (cap : Nat) : Nat → List Update → List (List Update) →
    List Update → List (List Update) → List Update → List (List Update) →
    List (List Update) × List Update × List Update × List (List Update) ×
      List Update × List (List Update)
  | 0, q1, l1, q2, l2, result, out => (out, result, q1, l1, q2, l2)
  | fuel + 1, q1, l1, q2, l2, result, out =>
    if q1 ≠ [] ∧ q2 ≠ [] then
      let m := mergeInner cap (q1.length + q2.length) q1 q2 result
      let q1' := m.1
      let q2' := m.2.1
      let result' := m.2.2
      let outPush := if result'.length = cap then (out ++ [result'], ([] : List Update))
        else (out, result')
      let refill1 := if q1' = [] then (l1.headD [], l1.tail) else (q1', l1)
      let refill2 := if q2' = [] then (l2.headD [], l2.tail) else (q2', l2)
      mergeOuterF cap fuel refill1.1 refill1.2 refill2.1 refill2.2 outPush.2 outPush.1
    else (out, result, q1, l1, q2, l2)

/-- The remainder-flush loop of `FlatcontainerMerger::merge`: top up the current
output chunk from the remaining queue, pushing each filled chunk. -/
def flushQueueF (cap : Nat) : Nat → List Update → List Update →
    List (List Update) → List (List Update) × List Update
  | 0, _, result, out => (out, result)
  | fuel + 1, head, result, out =>
    if head ≠ [] then
      let advance := cap - result.length
      flushQueueF cap fuel (head.drop advance) [] (out ++ [result ++ head.take advance])
    else (out, result)

/-- Total size of a chunk list. -/
def totalLen (l : List (List Update)) : Nat := (l.map List.length).sum

/-- `FlatcontainerMerger::merge`: merge two lists of sorted chunks into output
chunks, flushing remainders in bulk and appending unconsumed chunks unchanged. -/
def mergeChunks (cap : Nat) (list1 list2 : List (List Update)) :
    List (List Update) :=
  let q1 := list1.headD []
  let l1 := list1.tail
  let q2 := list2.headD []
  let l2 := list2.tail
  let fuel := q1.length + q2.length + totalLen l1 + l1.length + totalLen l2 + l2.length + 1
  let m := mergeOuterF cap fuel q1 l1 q2 l2 [] []
  let out := m.1
  let result := m.2.1
  let q1r := m.2.2.1
  let l1r := m.2.2.2.1
  let q2r := m.2.2.2.2.1
  let l2r := m.2.2.2.2.2
  let f1 := flushQueueF cap (q1r.length + 2) q1r result out
  let out := f1.1
  let result := f1.2
  let pushed := if result ≠ [] then (out ++ [result], ([] : List Update)) else (out, result)
  let out := pushed.1 ++ l1r
  let f2 := flushQueueF cap (q2r.length + 2) q2r pushed.2 out
  f2.1 ++ l2r

/-- Modelled from the spec (§4.3, merge kernel): the reference sorted merge of
two update runs — walk both, copy the smaller key, combine equal `(data, time)`
via `plus_equals` and keep the sum only if non-zero. -/
def mergeRefF : Nat → List Update → List Update → List Update
  | 0, l1, l2 => l1 ++ l2
  | _ + 1, [], l2 => l2
  | _ + 1, l1, [] => l1
  | fuel + 1, u1 :: r1, u2 :: r2 =>
    match cmpU u1 u2 with
    | .lt => u1 :: mergeRefF fuel r1 (u2 :: r2)
    | .gt => u2 :: mergeRefF fuel (u1 :: r1) r2
    | .eq =>
      let d := u1.2.2 + u2.2.2
      if d = 0 then mergeRefF fuel r1 r2
      else (u1.1, u1.2.1, d) :: mergeRefF fuel r1 r2

/-- Modelled from the spec (§4.3): the reference merge, with its bound
saturated. -/
def mergeRef (l1 l2 : List Update) : List Update :=
  mergeRefF (l1.length + l2.length) l1 l2

/-- Strict `(data, time)` order between two updates. -/
def keyLt (u v : Update) : Prop := u.1 < v.1 ∨ (u.1 = v.1 ∧ u.2.1 < v.2.1)

instance : DecidablePred fun p : Update × Update => keyLt p.1 p.2 := by
  intro p; unfold keyLt; infer_instance

instance (u v : Update) : Decidable (keyLt u v) := by
  unfold keyLt; infer_instance

/-- A run strictly sorted by `(data, time)` (in particular, no two entries share
a key). -/
def sortedU (l : List Update) : Prop := l.Pairwise keyLt

/-! ## Control-state preservation lemmas

The spine's maintenance machinery (`apply_fuel`, `roll_up`, `insert_at`,
`tidy_layers`, `introduce_batch`) only rewrites the `merging` layers; the
`consider_merges` loop additionally consumes `pending` and may call the
activator.  The following lemmas record this. -/

/-- Everything in the spine state except the `merging` layers. -/
def Spine.ctl (s : Spine) :
    List Nat × List Nat × List Batch × List Nat × Nat × Bool × Nat :=
  (s.advance_frontier, s.through_frontier, s.pending, s.upper, s.effort,
    s.hasActivator, s.activations)

/-- Everything in the spine state except `merging`, `pending` and the
activation count. -/
def Spine.ctl2 (s : Spine) : List Nat × List Nat × List Nat × Nat × Bool :=
  (s.advance_frontier, s.through_frontier, s.upper, s.effort, s.hasActivator)

theorem insert_at_ctl {b : Option Batch} {i : Nat} {s s' : Spine}
    (h : Spine.insert_at b i s = .ok s') : s'.ctl = s.ctl := by
  unfold Spine.insert_at at h
  dsimp only at h
  split at h
  · exact absurd h (by simp)
  · cases h
    rfl

theorem layerStep_ctl {fuel : Int} {s s' : Spine} {i : Nat}
    (h : Spine.layerStep fuel s i = .ok s') : s'.ctl = s.ctl := by
  unfold Spine.layerStep at h
  dsimp only at h
  split at h
  · split at h
    · exact absurd h (by simp)
    · exact (insert_at_ctl h).trans rfl
  · cases h
    rfl

theorem applyFuelAux_ctl {fuel : Int} {r i : Nat} {s s' : Spine}
    (h : Spine.applyFuelAux fuel r i s = .ok s') : s'.ctl = s.ctl := by
  induction r generalizing i s with
  | zero =>
    unfold Spine.applyFuelAux at h
    cases h
    rfl
  | succ r ih =>
    unfold Spine.applyFuelAux at h
    split at h
    · exact absurd h (by simp)
    · next heq => exact (ih h).trans (layerStep_ctl heq)

theorem apply_fuel_ctl {fuel : Int} {s s' : Spine}
    (h : Spine.apply_fuel fuel s = .ok s') : s'.ctl = s.ctl :=
  applyFuelAux_ctl h

theorem roll_up_ctl {i : Nat} {s s' : Spine}
    (h : Spine.roll_up i s = .ok s') : s'.ctl = s.ctl := by
  unfold Spine.roll_up at h
  dsimp only at h
  split at h
  · split at h
    · exact absurd h (by simp)
    · split at h
      · exact absurd h (by simp)
      · split at h
        · exact absurd h (by simp)
        · next s₁ heq =>
          have h₁ : s₁.ctl = s.ctl := (insert_at_ctl heq).trans rfl
          split at h
          · split at h
            · exact absurd h (by simp)
            · exact ((insert_at_ctl h).trans rfl).trans h₁
          · cases h
            exact h₁
  · cases h
    rfl

theorem tidy_layers_ctl {s s' : Spine}
    (h : Spine.tidy_layers s = .ok s') : s'.ctl = s.ctl := by
  unfold Spine.tidy_layers at h
  split at h
  · exact absurd h (by simp)
  · split at h <;> (cases h; rfl)

theorem introduce_batch_ctl {b : Option Batch} {i : Nat} {s s' : Spine}
    (h : Spine.introduce_batch b i s = .ok s') : s'.ctl = s.ctl := by
  unfold Spine.introduce_batch at h
  dsimp only at h
  split at h
  · exact absurd h (by simp)
  · next heq1 =>
    split at h
    · exact absurd h (by simp)
    · next heq2 =>
      split at h
      · exact absurd h (by simp)
      · next heq3 =>
        exact ((tidy_layers_ctl h).trans (insert_at_ctl heq3)).trans
          ((roll_up_ctl heq2).trans (apply_fuel_ctl heq1))

theorem ctl_to_ctl2 {s s' : Spine} (h : s'.ctl = s.ctl) : s'.ctl2 = s.ctl2 := by
  unfold Spine.ctl at h
  unfold Spine.ctl2
  simp only [Prod.mk.injEq] at h ⊢
  tauto

theorem activate_ctl2 (s : Spine) : s.activate.ctl2 = s.ctl2 := by
  unfold Spine.activate
  split <;> rfl

theorem considerMergesLoop_ctl2 {fuel : Nat} {s s' : Spine}
    (h : considerMergesLoop fuel s = .ok s') : s'.ctl2 = s.ctl2 := by
  induction fuel generalizing s with
  | zero =>
    cases h
    rfl
  | succ fuel ih =>
    unfold considerMergesLoop at h
    split at h
    · cases h
      rfl
    · split at h
      · split at h
        · exact absurd h (by simp)
        · next s₁ heq =>
          have h₁ : s₁.ctl2 = Spine.ctl2 _ := ctl_to_ctl2 (introduce_batch_ctl heq)
          have h₂ := ih h
          split at h₂
          · exact h₂.trans ((activate_ctl2 s₁).trans h₁)
          · exact h₂.trans h₁
      · cases h
        rfl

theorem consider_merges_ctl2 {s s' : Spine}
    (h : Spine.consider_merges s = .ok s') : s'.ctl2 = s.ctl2 :=
  considerMergesLoop_ctl2 h

/-! ## Claims about `insert`, `close` and `cursor_through` -/

deriving instance DecidableEq for Except

/-- The freshly allocated spine used in concrete witnesses. -/
def spineEx0 : Spine := Spine.with_effort 1 false

theorem cursorThrough_ne_ok_none (s : Spine) (upper : List Nat) :
    Spine.cursor_through s upper ≠ .ok none := by
  unfold Spine.cursor_through
  split
  · simp
  · split
    · simp
    · split <;> simp

/-- Claim C10: for every logically empty batch `b` (with `b.lower() = b.upper()`),
`insert(b)` panics, even when `b.lower()` equals the spine's current upper
frontier: the first assertion of `Spine::insert` rejects such batches. -/
theorem insert_rejects_logically_empty (s : Spine) (b : Batch)
    (h : b.lower = b.upper) :
    Spine.insert b s = .error "insert: batch.lower != batch.upper" := by
  unfold Spine.insert
  simp [h]

/-- Witness for C10 at a concrete logically empty batch whose lower bound equals
the fresh spine's upper frontier. -/
theorem insert_rejects_logically_empty_witness :
    (Batch.mk [0] [0] [0] []).lower = (Batch.mk [0] [0] [0] []).upper ∧
    (Batch.mk [0] [0] [0] []).lower = spineEx0.upper ∧
    Spine.insert (Batch.mk [0] [0] [0] []) spineEx0 =
      .error "insert: batch.lower != batch.upper" :=
  ⟨by decide, by decide,
    insert_rejects_logically_empty spineEx0 (Batch.mk [0] [0] [0] []) (by decide)⟩

/-- Claim C1 (amended): `cursor_through` never produces the "not available"
marker: whenever the call returns (rather than panicking on a contract
violation), the result is `Some` cursor — including when the requested `upper`
exceeds everything arranged. -/
theorem cursor_through_some_of_ok (s : Spine) (upper : List Nat)
    (r : Option (List Batch)) (h : Spine.cursor_through s upper = .ok r) :
    r.isSome = true := by
  cases r with
  | some l => rfl
  | none => exact absurd h (cursorThrough_ne_ok_none s upper)

/-- Witness for C1 (amended): a request far beyond everything arranged (the
fresh spine has arranged nothing) still returns `Some` cursor. -/
theorem cursor_through_some_of_ok_witness :
    Spine.cursor_through spineEx0 [100] = .ok (some []) ∧
    (some ([] : List Batch)).isSome = true :=
  ⟨by decide, cursor_through_some_of_ok spineEx0 [100] (some []) (by decide)⟩

/-- Claim C1 counterexample: the claimed input does not exist — on no spine and
no requested frontier does `cursor_through` return the "not available" marker
`None`. -/
theorem cursor_through_never_none :
    ¬ ∃ (s : Spine) (upper : List Nat), Spine.cursor_through s upper = .ok none := by
  rintro ⟨s, upper, h⟩
  exact cursorThrough_ne_ok_none s upper h

/-- Claim C5 (amended): `insert(b)` panics when `b` is logically empty
(`b.lower() = b.upper()`) or when `b.lower()` differs from the spine's current
upper frontier; otherwise it sets the upper frontier to `b.upper()`, appends `b`
to the pending list and invokes `consider_merges`, which leaves
`advance_frontier` and `distinguish_frontier` (and the upper frontier it just
set) unchanged. -/
theorem insert_characterization (s : Spine) (b : Batch) :
    (b.lower = b.upper →
      Spine.insert b s = .error "insert: batch.lower != batch.upper") ∧
    (b.lower ≠ b.upper → b.lower ≠ s.upper →
      Spine.insert b s = .error "insert: batch.lower == self.upper") ∧
    (b.lower ≠ b.upper → b.lower = s.upper →
      Spine.insert b s =
        Spine.consider_merges { s with upper := b.upper, pending := s.pending ++ [b] } ∧
      ∀ s', Spine.insert b s = .ok s' →
        s'.advance_frontier = s.advance_frontier ∧
        s'.through_frontier = s.through_frontier ∧
        s'.upper = b.upper) := by
  have e1 : b.lower ≠ b.upper → b.lower = s.upper →
      Spine.insert b s =
        Spine.consider_merges { s with upper := b.upper, pending := s.pending ++ [b] } := by
    intro h1 h2
    unfold Spine.insert
    rw [if_neg h1, if_neg (fun hn => hn h2)]
  refine ⟨fun h => by unfold Spine.insert; simp [h],
    fun h1 h2 => by unfold Spine.insert; rw [if_neg h1, if_pos h2],
    fun h1 h2 => ⟨e1 h1 h2, fun s' h => ?_⟩⟩
  rw [e1 h1 h2] at h
  have h3 := consider_merges_ctl2 h
  simp only [Spine.ctl2, Prod.mk.injEq] at h3
  exact ⟨h3.1, h3.2.1, h3.2.2.1⟩

/-- Witness for C5 (amended) at a concrete contiguous batch on the fresh spine. -/
theorem insert_characterization_witness :
    ((Batch.mk [0] [5] [0] [(1, 2, 1)]).lower ≠ (Batch.mk [0] [5] [0] [(1, 2, 1)]).upper) ∧
    ((Batch.mk [0] [5] [0] [(1, 2, 1)]).lower = spineEx0.upper) ∧
    Spine.insert (Batch.mk [0] [5] [0] [(1, 2, 1)]) spineEx0 =
      Spine.consider_merges
        { spineEx0 with upper := [5], pending := [Batch.mk [0] [5] [0] [(1, 2, 1)]] } :=
  ⟨by decide, by decide,
    ((insert_characterization spineEx0 (Batch.mk [0] [5] [0] [(1, 2, 1)])).2.2
      (by decide) (by decide)).1⟩

/-- Claim C5 counterexample: a logically empty batch whose lower frontier equals
the spine's upper frontier is rejected, where the claim says only a
non-contiguous lower frontier panics and such a batch would be appended. -/
theorem insert_rejects_empty_despite_contiguity :
    (Batch.mk [0] [0] [0] []).lower = spineEx0.upper ∧
    (Spine.insert (Batch.mk [0] [0] [0] []) spineEx0).isOk = false := by
  decide

/-- Claim C2 (amended): when the spine's upper frontier is non-empty, `close()`
synthesises and inserts exactly one final, physically empty batch whose `lower`
and `since` frontiers equal the spine's current upper frontier and whose `upper`
frontier is the *empty* frontier (not the spine's upper frontier); on success
the spine's upper frontier becomes empty and the advance/distinguish frontiers
are unchanged.  When the spine's upper frontier is empty, `close()` inserts
nothing. -/
theorem close_characterization (s : Spine) :
    (s.upper = [] → Spine.close s = .ok s) ∧
    (s.upper ≠ [] →
      Spine.close s = Spine.insert (Batch.mk s.upper [] s.upper []) s ∧
      (Batch.mk s.upper [] s.upper []).entries = [] ∧
      ∀ s', Spine.close s = .ok s' →
        s'.upper = [] ∧ s'.advance_frontier = s.advance_frontier ∧
        s'.through_frontier = s.through_frontier) := by
  refine ⟨fun h => by unfold Spine.close; simp [h],
    fun h => ⟨by unfold Spine.close; simp [h], rfl, fun s' hc => ?_⟩⟩
  unfold Spine.close at hc
  rw [if_pos h] at hc
  unfold Spine.insert at hc
  rw [if_neg (by simpa using h), if_neg (fun hn => hn rfl)] at hc
  have h3 := consider_merges_ctl2 hc
  simp only [Spine.ctl2, Prod.mk.injEq] at h3
  exact ⟨h3.2.2.1, h3.1, h3.2.1⟩

/-- Witness for C2 (amended) on the fresh spine (upper frontier `[0]`). -/
theorem close_characterization_witness :
    spineEx0.upper ≠ [] ∧
    Spine.close spineEx0 = Spine.insert (Batch.mk [0] [] [0] []) spineEx0 :=
  ⟨by decide, ((close_characterization spineEx0).2 (by decide)).1⟩

/-- Claim C2 counterexample: on the fresh spine (upper frontier `[0]`) the batch
`close()` inserts has upper frontier `[]`, not the spine's upper frontier `[0]`,
and is not logically empty (`lower ≠ upper`); the state after `close` holds it
pending with these bounds. -/
theorem close_inserts_open_upper_batch :
    Spine.close spineEx0 =
      .ok { spineEx0 with upper := [], pending := [Batch.mk [0] [] [0] []] } ∧
    (Batch.mk [0] [] [0] []).upper ≠ spineEx0.upper ∧
    (Batch.mk [0] [] [0] []).lower ≠ (Batch.mk [0] [] [0] []).upper := by
  decide

/-! ## Claim C4: straddle detection in `cursor_through` -/

theorem pendingStep_error {upper : List Nat} {acc : List Batch} {b : Batch}
    {e : String} (h : pendingStep upper acc b = .error e) :
    e = "cursor_through: upper straddles batch" := by
  unfold pendingStep at h
  dsimp only at h
  split at h
  · exact absurd h (by simp)
  · split at h
    · cases h
      rfl
    · split at h <;> exact absurd h (by simp)

theorem pendingFold_straddle {upper : List Nat} {b : Batch}
    (hne : b.is_empty = false)
    (hstrad : upper.all (fun t1 => b.lower.any (fun t2 => t2 ≤ t1)) ≠
      upper.all (fun t1 => b.upper.any (fun t2 => t2 ≤ t1)))
    (hnl : upper ≠ b.lower) :
    ∀ (pending : List Batch) (acc : List Batch), b ∈ pending →
      pending.foldlM (pendingStep upper) acc =
        .error "cursor_through: upper straddles batch" := by
  intro pending
  induction pending with
  | nil => intro acc hmem; cases hmem
  | cons x xs ih =>
    intro acc hmem
    rw [List.foldlM_cons]
    rcases List.mem_cons.mp hmem with rfl | hmem
    · have hx : pendingStep upper acc b =
          .error "cursor_through: upper straddles batch" := by
        unfold pendingStep
        rw [if_neg (by simp [hne]), if_pos ⟨hstrad, hnl⟩]
      rw [hx]
      rfl
    · cases h : pendingStep upper acc x with
      | error e =>
        have he := pendingStep_error h
        subst he
        rfl
      | ok acc' =>
        exact ih acc' hmem

/-- Claim C4 (amended): for every non-empty pending batch `b` and requested
frontier `upper` that straddles `b` (dominating exactly one of `b`'s bounds)
*and differs from `b.lower()`*, `cursor_through(upper)` panics (given its two
preconditions: a non-empty advance frontier and `upper` at or beyond the
distinguish frontier).  When `upper = b.lower()` the source's extra guard
`upper != batch.lower()` suppresses the panic. -/
theorem cursor_through_straddle_panics (s : Spine) (upper : List Nat) (b : Batch)
    (hadv : s.advance_frontier ≠ [])
    (hthr : upper.all (fun t1 => s.through_frontier.any (fun t2 => t2 ≤ t1)) = true)
    (hmem : b ∈ s.pending)
    (hne : b.is_empty = false)
    (hstrad : upper.all (fun t1 => b.lower.any (fun t2 => t2 ≤ t1)) ≠
      upper.all (fun t1 => b.upper.any (fun t2 => t2 ≤ t1)))
    (hnl : upper ≠ b.lower) :
    Spine.cursor_through s upper =
      .error "cursor_through: upper straddles batch" := by
  unfold Spine.cursor_through
  rw [if_neg (by simpa using hadv), if_neg (by simp [hthr]),
    pendingFold_straddle hne hstrad hnl s.pending [] hmem]

/-- A spine holding one pending batch spanning `[5, 10)`. -/
def spineC4 : Spine :=
  { advance_frontier := [0], through_frontier := [0], merging := [],
    pending := [Batch.mk [5] [10] [0] [(0, 7, 1)]], upper := [10], effort := 1,
    hasActivator := false, activations := 0 }

/-- Witness for C4 (amended): requesting `[7]`, strictly inside the pending
batch's bounds, panics. -/
theorem cursor_through_straddle_panics_witness :
    (Batch.mk [5] [10] [0] [(0, 7, 1)]) ∈ spineC4.pending ∧
    Spine.cursor_through spineC4 [7] =
      .error "cursor_through: upper straddles batch" :=
  ⟨by decide,
    cursor_through_straddle_panics spineC4 [7] (Batch.mk [5] [10] [0] [(0, 7, 1)])
      (by decide) (by decide) (by decide) (by decide) (by decide) (by decide)⟩

/-- Claim C4 counterexample: `upper = [5]` dominates the pending batch's lower
frontier `[5]` but not its upper frontier `[10]` — a straddle in the claim's
sense — yet `cursor_through([5])` does not panic: it returns a cursor (over no
batches), because the source additionally requires `upper != batch.lower()`. -/
theorem cursor_through_no_panic_at_batch_lower :
    (([5] : List Nat).all (fun t1 =>
        (Batch.mk [5] [10] [0] [(0, 7, 1)]).lower.any (fun t2 => t2 ≤ t1)) ≠
      ([5] : List Nat).all (fun t1 =>
        (Batch.mk [5] [10] [0] [(0, 7, 1)]).upper.any (fun t2 => t2 ≤ t1))) ∧
    (Batch.mk [5] [10] [0] [(0, 7, 1)]).is_empty = false ∧
    Spine.cursor_through spineC4 [5] = .ok (some []) := by
  decide

/-! ## Claim C9: layer shapes across insert sequences -/

/-- The states a spine passes through under a sequence of `insert` calls: the
current state, then (if the insert does not panic) the states of the rest.  A
panic has no "at rest" successor states. -/
def insertTrace (s : Spine) : List Batch → List Spine
  | [] => [s]
  | b :: bs =>
    s :: (match Spine.insert b s with
      | .ok s' => insertTrace s' bs
      | .error _ => [])

/-- If the head of the pending list is not cleared by the distinguish frontier
(or there is no pending batch), the `consider_merges` loop is a no-op. -/
theorem considerMergesLoop_stuck {fuel : Nat} {s : Spine}
    (h : ∀ b, s.pending.head? = some b →
      s.through_frontier.all (fun t1 => b.upper.any (fun t2 => t2 ≤ t1)) = false) :
    considerMergesLoop fuel s = .ok s := by
  cases fuel with
  | zero => rfl
  | succ fuel =>
    unfold considerMergesLoop
    cases hp : s.pending with
    | nil => rfl
    | cons batch rest =>
      dsimp only
      rw [h batch (by rw [hp]; rfl)]
      simp

/-- The invariant maintained across insert-only call sequences over the `Nat`
time lattice: the distinguish frontier still sits at the minimum, so no pending
batch has migrated into the merging layers. -/
def InvC9 (s : Spine) : Prop :=
  s.merging = [] ∧ s.through_frontier = [0] ∧
  (s.pending = [] → s.upper = [0]) ∧
  (∀ b, s.pending.head? = some b → b.upper.any (fun t2 => t2 ≤ 0) = false)

theorem invC9_insert {s s' : Spine} {b : Batch} (inv : InvC9 s)
    (hb : b.upper = [] ∨ ∃ t, b.upper = [t])
    (h : Spine.insert b s = .ok s') : InvC9 s' := by
  obtain ⟨hm, ht, hpu, hph⟩ := inv
  unfold Spine.insert at h
  split at h
  · exact absurd h (by simp)
  · split at h
    · exact absurd h (by simp)
    · next h1 h2 =>
      rw [not_not] at h2
      set s₁ : Spine := { s with upper := b.upper, pending := s.pending ++ [b] } with hs₁
      have hhead : ∀ c, s₁.pending.head? = some c → c.upper.any (fun t2 => t2 ≤ 0) = false := by
        intro c hc
        cases hp : s.pending with
        | nil =>
          have : c = b := by
            rw [hs₁] at hc
            simp [hp] at hc
            exact hc.symm
          subst this
          rcases hb with hb | ⟨t, hb⟩
          · simp [hb]
          · have htz : t ≠ 0 := by
              intro h0
              subst h0
              exact h1 ((h2.trans (hpu hp)).trans hb.symm)
            simp [hb, Nat.le_zero, htz]
        | cons p ps =>
          have hcp : c = p := by
            rw [hs₁] at hc
            simp [hp] at hc
            exact hc.symm
          rw [hcp]
          exact hph p (by rw [hp]; rfl)
      have hloop : Spine.consider_merges s₁ = .ok s₁ :=
        considerMergesLoop_stuck (by simpa [hs₁, ht] using hhead)
      rw [hloop] at h
      have hes : s' = s₁ := by
        injection h with h
        exact h.symm
      subst hes
      refine ⟨hm, ht, ?_, hhead⟩
      intro hp
      simp [hs₁] at hp

theorem insertTrace_inv (bs : List Batch) :
    ∀ s, InvC9 s → (∀ b ∈ bs, b.upper = [] ∨ ∃ t, b.upper = [t]) →
      ∀ s' ∈ insertTrace s bs, InvC9 s' := by
  induction bs with
  | nil =>
    intro s inv _ s' hs'
    unfold insertTrace at hs'
    simp at hs'
    exact hs' ▸ inv
  | cons b bs ih =>
    intro s inv hb s' hs'
    unfold insertTrace at hs'
    rcases List.mem_cons.mp hs' with rfl | hs'
    · exact inv
    · split at hs'
      · next s₁ h =>
        exact ih s₁ (invC9_insert inv (hb b (by simp)) h)
          (fun c hc => hb c (by simp [hc])) s' hs'
      · cases hs'

/-- Claim C9: for any sequence of `insert` calls on a fresh spine (with valid
antichain upper frontiers for the inserted batches, over the totally ordered
`Nat` lattice), at every state at rest every layer of the spine is one of
Vacant, Single or Double, and no layer is Double.  (Indeed the merging layer
list stays empty: with the distinguish frontier still at the minimum time, no
pending batch is ever migrated by `consider_merges`.) -/
theorem insert_sequence_layer_invariant (e : Nat) (act : Bool) (bs : List Batch)
    (h : ∀ b ∈ bs, b.upper = [] ∨ ∃ t, b.upper = [t]) :
    ∀ s' ∈ insertTrace (Spine.with_effort e act) bs,
      (∀ m ∈ s'.merging,
        (m.is_vacant = true ∨ m.is_single = true ∨ m.is_double = true) ∧
        m.is_double = false) ∧
      s'.merging = [] := by
  intro s' hs'
  have inv0 : InvC9 (Spine.with_effort e act) := by
    refine ⟨rfl, rfl, fun _ => rfl, fun b hb => ?_⟩
    simp [Spine.with_effort] at hb
  have inv := insertTrace_inv bs (Spine.with_effort e act) inv0 h s' hs'
  rw [inv.1]
  exact ⟨fun m hm => absurd hm (by simp), rfl⟩

/-- A two-batch insert sequence used as the C9 witness. -/
def bsExC9 : List Batch :=
  [Batch.mk [0] [3] [0] [(0, 1, 1)], Batch.mk [3] [7] [0] [(0, 4, 2)]]

/-- Witness for C9 on a concrete two-insert sequence. -/
theorem insert_sequence_layer_invariant_witness :
    (∀ b ∈ bsExC9, b.upper = [] ∨ ∃ t, b.upper = [t]) ∧
    ∀ s' ∈ insertTrace (Spine.with_effort 1 false) bsExC9,
      (∀ m ∈ s'.merging,
        (m.is_vacant = true ∨ m.is_single = true ∨ m.is_double = true) ∧
        m.is_double = false) ∧
      s'.merging = [] :=
  ⟨by intro b hb
      simp [bsExC9] at hb
      rcases hb with rfl | rfl
      · exact Or.inr ⟨3, rfl⟩
      · exact Or.inr ⟨7, rfl⟩,
    insert_sequence_layer_invariant 1 false bsExC9
      (by intro b hb
          simp [bsExC9] at hb
          rcases hb with rfl | rfl
          · exact Or.inr ⟨3, rfl⟩
          · exact Or.inr ⟨7, rfl⟩)⟩

/-! ## Claim C3: the layer chosen by `exert` -/

theorem tzGo_two_pow (k : Nat) : ∀ fuel, k + 1 ≤ fuel → tzGo fuel (2 ^ k) = k := by
  induction k with
  | zero =>
    intro fuel hf
    match fuel, hf with
    | fuel + 1, _ =>
      unfold tzGo
      norm_num
  | succ k ih =>
    intro fuel hf
    match fuel, hf with
    | fuel + 1, hf =>
      unfold tzGo
      rw [if_neg (by simp [Nat.pow_succ, Nat.mul_mod_left])]
      rw [show 2 ^ (k + 1) / 2 = 2 ^ k by rw [Nat.pow_succ]; exact Nat.mul_div_cancel _ (by norm_num)]
      rw [ih fuel (Nat.lt_succ_iff.mp (Nat.lt_of_lt_of_le (Nat.lt_succ_self _) hf))]

theorem trailingZeros_two_pow (k : Nat) : trailingZeros (2 ^ k) = k :=
  tzGo_two_pow k (2 ^ k) (Nat.lt_two_pow k)

theorem npo2Go_eq_pow_clog (n : Nat) :
    ∀ fuel j, Nat.clog 2 n ≤ j + fuel →
      npo2Go n fuel (2 ^ j) = 2 ^ max j (Nat.clog 2 n) := by
  intro fuel
  induction fuel with
  | zero =>
    intro j hj
    rw [Nat.add_zero] at hj
    unfold npo2Go
    rw [Nat.max_eq_left hj]
  | succ fuel ih =>
    intro j hj
    unfold npo2Go
    by_cases hle : n ≤ 2 ^ j
    · rw [if_pos hle, Nat.max_eq_left ((Nat.le_pow_iff_clog_le (by norm_num)).mp hle)]
    · rw [if_neg hle]
      have hcj : j < Nat.clog 2 n := by
        by_contra hc
        exact hle ((Nat.le_pow_iff_clog_le (by norm_num)).mpr (Nat.le_of_not_lt hc))
      have : (2 : Nat) * 2 ^ j = 2 ^ (j + 1) := by
        rw [Nat.pow_succ, Nat.mul_comm]
      rw [this, ih (j + 1) (by omega)]
      rw [Nat.max_eq_right hcj.le, Nat.max_eq_right (by omega)]

theorem nextPowerOfTwo_eq_pow_clog (n : Nat) :
    nextPowerOfTwo n = 2 ^ Nat.clog 2 n := by
  have h : nextPowerOfTwo n = npo2Go n n (2 ^ 0) := rfl
  have hc : Nat.clog 2 n ≤ n := by
    rcases Nat.eq_zero_or_pos n with rfl | hn
    · simp
    · exact (Nat.le_pow_iff_clog_le (by norm_num)).mp (Nat.le_of_lt (Nat.lt_two_pow n))
  rw [h, npo2Go_eq_pow_clog n n 0 (by omega), Nat.max_eq_right (Nat.zero_le _)]

/-- The spine's layer-index computation is the ceiling of the base-2 logarithm. -/
theorem layerIndexOf_eq_clog (n : Nat) : layerIndexOf n = Nat.clog 2 n := by
  unfold layerIndexOf
  rw [nextPowerOfTwo_eq_pow_clog, trailingZeros_two_pow]

/-- Claim C3 (amended): on a spine that is not reduced, `exert(&mut e)` with
`1 ≤ e` introduces an empty batch (a `None` placeholder) at layer
`⌈log₂ e⌉` — the source computes `(e as usize).next_power_of_two().trailing_zeros()`,
the *ceiling* (not the floor) of the base-2 logarithm — and then calls the
activator's `activate()`; on a reduced spine `exert` changes nothing. -/
theorem exert_level_is_ceil_log2 (e : Int) (s : Spine) (h1 : 1 ≤ e)
    (h2 : e < 2 ^ 63) :
    (s.reduced = false →
      Spine.exert e s =
        Except.map Spine.activate
          (Spine.introduce_batch none (Nat.clog 2 e.toNat) s)) ∧
    (s.reduced = true → Spine.exert e s = .ok s) := by
  have hu : usizeOf e = e.toNat := by
    unfold usizeOf
    have h0 : (0 : Int) ≤ e := by omega
    have h64 : e < 2 ^ 64 := lt_trans h2 (by norm_num)
    rw [Int.emod_eq_of_lt h0 h64]
  constructor
  · intro hr
    unfold Spine.exert
    rw [hr, hu, layerIndexOf_eq_clog]
    cases hi : Spine.introduce_batch none (Nat.clog 2 e.toNat) s <;>
      simp [Except.map]
  · intro hr
    unfold Spine.exert
    rw [hr]
    rfl

/-- A spine with two single layers (hence not reduced). -/
def spineNR : Spine :=
  { advance_frontier := [0], through_frontier := [0],
    merging := [.single (some (Batch.mk [1] [2] [0] [(0, 1, 1)])),
      .single (some (Batch.mk [0] [1] [0] [(0, 0, 1)]))],
    pending := [], upper := [2], effort := 1, hasActivator := false,
    activations := 0 }

/-- Witness for C3 (amended) at effort `1` on a non-reduced spine. -/
theorem exert_level_is_ceil_log2_witness :
    spineNR.reduced = false ∧
    Spine.exert 1 spineNR =
      Except.map Spine.activate
        (Spine.introduce_batch none (Nat.clog 2 (1 : Int).toNat) spineNR) :=
  ⟨by decide,
    (exert_level_is_ceil_log2 1 spineNR (by norm_num) (by norm_num)).1 (by decide)⟩

/-- Claim C3 counterexample: at effort `3` the claim predicts the empty batch is
introduced at layer `⌊log₂ 3⌋ = 1`, but `exert` introduces it at layer `2`
(`3.next_power_of_two().trailing_zeros() = 2`): the resulting spine differs from
the layer-1 outcome and matches the layer-2 outcome. -/
theorem exert_level_not_floor_log2 :
    Nat.log2 3 = 1 ∧
    spineNR.reduced = false ∧
    Spine.exert 3 spineNR ≠
      Except.map Spine.activate (Spine.introduce_batch none 1 spineNR) ∧
    Spine.exert 3 spineNR =
      Except.map Spine.activate (Spine.introduce_batch none 2 spineNR) := by
  refine ⟨by norm_num [Nat.log2], by decide, by decide, by decide⟩

/-! ## Claim C6: fuel policy of `introduce_batch` / `apply_fuel` -/

theorem applyFuelAux_eq_foldlM (fuel : Int) :
    ∀ (r i : Nat) (t : Spine),
      Spine.applyFuelAux fuel r i t =
        (List.range' i r).foldlM (Spine.layerStep fuel) t := by
  intro r
  induction r with
  | zero =>
    intro i t
    rfl
  | succ r ih =>
    intro i t
    rw [List.range'_succ, List.foldlM_cons]
    unfold Spine.applyFuelAux
    cases h : Spine.layerStep fuel t i with
    | error e => rfl
    | ok t' => exact ih (i + 1) t'

/-- Claim C6: `introduce_batch(b, k)` computes a fuel budget of exactly
`8 * 2^k * effort` (the source's `(8 << batch_index) * self.effort`), applies it
via `apply_fuel`, then rolls up, inserts at `k` and tidies; and `apply_fuel`
advances the merge at each layer, in ascending layer order, with a private copy
of the *full* budget — layers do not share or deplete a common fuel pool — with
each completing merge promoted by `insert_at` to the next layer (visible in
`Spine.layerStep`). -/
theorem introduce_batch_fuel_policy (b : Option Batch) (k : Nat) (s : Spine) :
    Spine.introduce_batch b k s =
      (match Spine.apply_fuel (((8 * 2 ^ k * s.effort : Nat) : Int)) s with
        | .error e => .error e
        | .ok s1 =>
          match Spine.roll_up k s1 with
          | .error e => .error e
          | .ok s2 =>
            match Spine.insert_at b k s2 with
            | .error e => .error e
            | .ok s3 => Spine.tidy_layers s3) ∧
    ∀ (fuel : Int) (t : Spine),
      Spine.apply_fuel fuel t =
        (List.range t.merging.length).foldlM (Spine.layerStep fuel) t := by
  constructor
  · unfold Spine.introduce_batch
    rw [Nat.shiftLeft_eq]
  · intro fuel t
    rw [Spine.apply_fuel, applyFuelAux_eq_foldlM, List.range_eq_range']

/-! ## Claim C7: the batcher's `extract` partition -/

theorem extractStep_fold_spec (cap : Nat) (upper : List Nat) :
    ∀ (l : List Update) (acc : ExtractAcc),
      ((l.foldl (extractStep cap upper) acc).readied.flatten ++
          (l.foldl (extractStep cap upper) acc).ready =
        acc.readied.flatten ++ acc.ready ++
          l.filter (fun u => !(frontierLE upper u.2.1))) ∧
      ((l.foldl (extractStep cap upper) acc).kept.flatten ++
          (l.foldl (extractStep cap upper) acc).keep =
        acc.kept.flatten ++ acc.keep ++
          l.filter (fun u => frontierLE upper u.2.1)) ∧
      (l.foldl (extractStep cap upper) acc).frontier =
        (l.filter (fun u => frontierLE upper u.2.1)).foldl
          (fun f u => antichainInsert f u.2.1) acc.frontier := by
  intro l
  induction l with
  | nil => intro acc; simp
  | cons u rest ih =>
    intro acc
    rw [List.foldl_cons]
    obtain ⟨ih1, ih2, ih3⟩ := ih (extractStep cap upper acc u)
    by_cases hle : frontierLE upper u.2.1
    · have hstep : (extractStep cap upper acc u).readied = acc.readied ∧
          (extractStep cap upper acc u).ready = acc.ready ∧
          (extractStep cap upper acc u).kept.flatten ++ (extractStep cap upper acc u).keep =
            acc.kept.flatten ++ acc.keep ++ [u] ∧
          (extractStep cap upper acc u).frontier = antichainInsert acc.frontier u.2.1 := by
        unfold extractStep
        rw [if_pos hle]
        split <;> simp
      refine ⟨?_, ?_, ?_⟩
      · rw [ih1, hstep.1, hstep.2.1]
        simp [hle]
      · rw [ih2, hstep.2.2.1]
        simp [hle]
      · rw [ih3, hstep.2.2.2]
        simp [hle]
    · have hstep : (extractStep cap upper acc u).kept = acc.kept ∧
          (extractStep cap upper acc u).keep = acc.keep ∧
          (extractStep cap upper acc u).readied.flatten ++ (extractStep cap upper acc u).ready =
            acc.readied.flatten ++ acc.ready ++ [u] ∧
          (extractStep cap upper acc u).frontier = acc.frontier := by
        unfold extractStep
        rw [if_neg hle]
        split <;> simp
      refine ⟨?_, ?_, ?_⟩
      · rw [ih1, hstep.2.2.1]
        simp [hle]
      · rw [ih2, hstep.1, hstep.2.1]
        simp [hle]
      · rw [ih3, hstep.2.2.2]
        simp [hle]

/-- Claim C7: over every chunk of `merged`, `extract` places each update into
the ready output iff its time is not in advance of `upper` (i.e.
`!upper.less_equal(time)`) and into the kept output otherwise, preserving every
update in traversal order (none dropped or duplicated), and the returned
frontier is exactly the antichain built by inserting the times of the kept
updates (into the caller-supplied frontier accumulator). -/
theorem extract_partition_spec (cap : Nat) (merged : List (List Update))
    (upper f₀ : List Nat) (r₀ k₀ : List (List Update)) :
    (extract cap merged upper f₀ r₀ k₀).2.1.flatten =
      r₀.flatten ++ merged.flatten.filter (fun u => !(frontierLE upper u.2.1)) ∧
    (extract cap merged upper f₀ r₀ k₀).2.2.flatten =
      k₀.flatten ++ merged.flatten.filter (fun u => frontierLE upper u.2.1) ∧
    (extract cap merged upper f₀ r₀ k₀).1 =
      (merged.flatten.filter (fun u => frontierLE upper u.2.1)).foldl
        (fun f u => antichainInsert f u.2.1) f₀ := by
  unfold extract
  rw [show (merged.foldl (fun acc buffer => buffer.foldl (extractStep cap upper) acc)
      { frontier := f₀, readied := r₀, ready := [], kept := k₀, keep := [] }) =
    (merged.flatten.foldl (extractStep cap upper)
      { frontier := f₀, readied := r₀, ready := [], kept := k₀, keep := [] }) by
    rw [List.foldl_flatten]]
  obtain ⟨h1, h2, h3⟩ := extractStep_fold_spec cap upper merged.flatten
    { frontier := f₀, readied := r₀, ready := [], kept := k₀, keep := [] }
  refine ⟨?_, ?_, ?_⟩
  · dsimp only
    split
    · rw [List.flatten_append]
      simpa using h1
    · next hr =>
      rw [not_ne_iff.mp hr] at h1
      simpa using h1
  · dsimp only
    split
    · rw [List.flatten_append]
      simpa using h2
    · next hr =>
      rw [not_ne_iff.mp hr] at h2
      simpa using h2
  · exact h3

/-! ## Claim C8: the chunked merge refines the reference merge -/

theorem mergeRefF_congr :
    ∀ (f g : Nat) (l1 l2 : List Update), l1.length + l2.length ≤ f →
      l1.length + l2.length ≤ g → mergeRefF f l1 l2 = mergeRefF g l1 l2 := by
  intro f
  induction f with
  | zero =>
    intro g l1 l2 hf _
    have h1 : l1 = [] := by
      cases l1
      · rfl
      · simp at hf
    have h2 : l2 = [] := by
      cases l2
      · rfl
      · simp at hf
    subst h1
    subst h2
    cases g <;> simp [mergeRefF]
  | succ f ih =>
    intro g l1 l2 hf hg
    cases l1 with
    | nil => cases g <;> simp [mergeRefF]
    | cons u1 r1 =>
      cases l2 with
      | nil => cases g <;> simp [mergeRefF]
      | cons u2 r2 =>
        cases g with
        | zero => simp at hg
        | succ g =>
          simp only [mergeRefF]
          simp only [List.length_cons] at hf hg
          cases hc : cmpU u1 u2 with
          | lt => rw [ih g r1 (u2 :: r2) (by simp; omega) (by simp; omega)]
          | gt => rw [ih g (u1 :: r1) r2 (by simp; omega) (by simp; omega)]
          | eq =>
            dsimp only
            split <;> rw [ih g r1 r2 (by omega) (by omega)]

theorem mergeRef_nil_left (l : List Update) : mergeRef [] l = l := by
  unfold mergeRef
  cases l <;> simp [mergeRefF]

theorem mergeRef_nil_right (l : List Update) : mergeRef l [] = l := by
  unfold mergeRef
  cases l <;> simp [mergeRefF]

theorem mergeRef_cons_lt {u1 u2 : Update} (r1 r2 : List Update)
    (h : cmpU u1 u2 = .lt) :
    mergeRef (u1 :: r1) (u2 :: r2) = u1 :: mergeRef r1 (u2 :: r2) := by
  unfold mergeRef
  have e : (u1 :: r1).length + (u2 :: r2).length =
      (r1.length + (u2 :: r2).length) + 1 := by
    simp
    omega
  rw [e]
  simp only [mergeRefF, h]

theorem mergeRef_cons_gt {u1 u2 : Update} (r1 r2 : List Update)
    (h : cmpU u1 u2 = .gt) :
    mergeRef (u1 :: r1) (u2 :: r2) = u2 :: mergeRef (u1 :: r1) r2 := by
  unfold mergeRef
  have e : (u1 :: r1).length + (u2 :: r2).length =
      ((u1 :: r1).length + r2.length) + 1 := by
    simp
    omega
  rw [e]
  simp only [mergeRefF, h]

theorem mergeRef_cons_eq_zero {u1 u2 : Update} (r1 r2 : List Update)
    (h : cmpU u1 u2 = .eq) (hz : u1.2.2 + u2.2.2 = 0) :
    mergeRef (u1 :: r1) (u2 :: r2) = mergeRef r1 r2 := by
  unfold mergeRef
  have e : (u1 :: r1).length + (u2 :: r2).length =
      (r1.length + r2.length) + 1 + 1 := by
    simp
    omega
  rw [e]
  simp only [mergeRefF, h]
  rw [if_pos hz]
  exact mergeRefF_congr (r1.length + r2.length + 1) (r1.length + r2.length) r1 r2
    (by omega) (by omega)

theorem mergeRef_cons_eq_ne {u1 u2 : Update} (r1 r2 : List Update)
    (h : cmpU u1 u2 = .eq) (hz : u1.2.2 + u2.2.2 ≠ 0) :
    mergeRef (u1 :: r1) (u2 :: r2) =
      (u1.1, u1.2.1, u1.2.2 + u2.2.2) :: mergeRef r1 r2 := by
  unfold mergeRef
  have e : (u1 :: r1).length + (u2 :: r2).length =
      (r1.length + r2.length) + 1 + 1 := by
    simp
    omega
  rw [e]
  simp only [mergeRefF, h]
  rw [if_neg hz]
  rw [mergeRefF_congr (r1.length + r2.length + 1) (r1.length + r2.length) r1 r2
    (by omega) (by omega)]

theorem mergeInner_spec (cap : Nat) :
    ∀ (fuel : Nat) (q1 q2 result : List Update),
      q1.length + q2.length ≤ fuel →
      ∃ δ : List Update,
        (mergeInner cap fuel q1 q2 result).2.2 = result ++ δ ∧
        (∀ a b : List Update,
          δ ++ mergeRef ((mergeInner cap fuel q1 q2 result).1 ++ a)
              ((mergeInner cap fuel q1 q2 result).2.1 ++ b) =
            mergeRef (q1 ++ a) (q2 ++ b)) ∧
        (mergeInner cap fuel q1 q2 result).1.length +
            (mergeInner cap fuel q1 q2 result).2.1.length ≤
          q1.length + q2.length ∧
        (result.length ≤ cap → (result ++ δ).length ≤ cap) ∧
        (result.length < cap → q1 ≠ [] → q2 ≠ [] →
          (mergeInner cap fuel q1 q2 result).1.length +
              (mergeInner cap fuel q1 q2 result).2.1.length <
            q1.length + q2.length) := by
  intro fuel
  induction fuel with
  | zero =>
    intro q1 q2 result hf
    refine ⟨[], by simp [mergeInner], fun a b => by simp [mergeInner], ?_, ?_, ?_⟩
    · simp [mergeInner]
    · simp
    · intro _ hq1 _
      cases q1 with
      | nil => exact absurd rfl hq1
      | cons x xs => simp at hf
  | succ fuel ih =>
    intro q1 q2 result hf
    by_cases hcap : result.length < cap
    · cases q1 with
      | nil =>
        refine ⟨[], ?_, ?_, ?_, ?_, ?_⟩ <;>
          simp [mergeInner, if_pos hcap]
      | cons u1 r1 =>
        cases q2 with
        | nil =>
          refine ⟨[], ?_, ?_, ?_, ?_, ?_⟩ <;>
            simp [mergeInner, if_pos hcap]
        | cons u2 r2 =>
          simp only [List.length_cons] at hf
          cases hc : cmpU u1 u2 with
          | lt =>
            have hred : mergeInner cap (fuel + 1) (u1 :: r1) (u2 :: r2) result =
                mergeInner cap fuel r1 (u2 :: r2) (result ++ [u1]) := by
              simp only [mergeInner]
              rw [if_pos hcap]
              simp only [hc]
            obtain ⟨δ', ha, hb, hc', hd, _⟩ :=
              ih r1 (u2 :: r2) (result ++ [u1]) (by simp; omega)
            refine ⟨u1 :: δ', ?_, ?_, ?_, ?_, ?_⟩
            · rw [hred, ha]
              simp
            · intro a b
              rw [hred]
              have : (u1 :: δ') ++
                  mergeRef ((mergeInner cap fuel r1 (u2 :: r2) (result ++ [u1])).1 ++ a)
                    ((mergeInner cap fuel r1 (u2 :: r2) (result ++ [u1])).2.1 ++ b) =
                  u1 :: (δ' ++
                    mergeRef ((mergeInner cap fuel r1 (u2 :: r2) (result ++ [u1])).1 ++ a)
                      ((mergeInner cap fuel r1 (u2 :: r2) (result ++ [u1])).2.1 ++ b)) := by
                simp
              rw [this, hb a b, List.cons_append, List.cons_append,
                mergeRef_cons_lt (r1 ++ a) (r2 ++ b) hc]
            · rw [hred]
              refine le_trans hc' ?_
              simp only [List.length_cons]
              omega
            · intro hres
              have hstep := hd (by simp only [List.length_append, List.length_cons, List.length_nil]; omega)
              simp only [List.length_append, List.length_cons, List.length_nil] at hstep ⊢
              omega
            · intro _ _ _
              rw [hred]
              refine lt_of_le_of_lt hc' ?_
              simp only [List.length_cons]
              omega
          | gt =>
            have hred : mergeInner cap (fuel + 1) (u1 :: r1) (u2 :: r2) result =
                mergeInner cap fuel (u1 :: r1) r2 (result ++ [u2]) := by
              simp only [mergeInner]
              rw [if_pos hcap]
              simp only [hc]
            obtain ⟨δ', ha, hb, hc', hd, _⟩ :=
              ih (u1 :: r1) r2 (result ++ [u2]) (by simp; omega)
            refine ⟨u2 :: δ', ?_, ?_, ?_, ?_, ?_⟩
            · rw [hred, ha]
              simp
            · intro a b
              rw [hred]
              have : (u2 :: δ') ++
                  mergeRef ((mergeInner cap fuel (u1 :: r1) r2 (result ++ [u2])).1 ++ a)
                    ((mergeInner cap fuel (u1 :: r1) r2 (result ++ [u2])).2.1 ++ b) =
                  u2 :: (δ' ++
                    mergeRef ((mergeInner cap fuel (u1 :: r1) r2 (result ++ [u2])).1 ++ a)
                      ((mergeInner cap fuel (u1 :: r1) r2 (result ++ [u2])).2.1 ++ b)) := by
                simp
              rw [this, hb a b, List.cons_append, List.cons_append,
                mergeRef_cons_gt (r1 ++ a) (r2 ++ b) hc]
            · rw [hred]
              refine le_trans hc' ?_
              simp only [List.length_cons]
              omega
            · intro hres
              have hstep := hd (by simp only [List.length_append, List.length_cons, List.length_nil]; omega)
              simp only [List.length_append, List.length_cons, List.length_nil] at hstep ⊢
              omega
            · intro _ _ _
              rw [hred]
              refine lt_of_le_of_lt hc' ?_
              simp only [List.length_cons]
              omega
          | eq =>
            by_cases hz : u1.2.2 + u2.2.2 = 0
            · have hred : mergeInner cap (fuel + 1) (u1 :: r1) (u2 :: r2) result =
                  mergeInner cap fuel r1 r2 result := by
                simp only [mergeInner]
                rw [if_pos hcap]
                simp only [hc]
                rw [if_pos hz]
              obtain ⟨δ', ha, hb, hc', hd, _⟩ := ih r1 r2 result (by omega)
              refine ⟨δ', ?_, ?_, ?_, ?_, ?_⟩
              · rw [hred, ha]
              · intro a b
                rw [hred, hb a b, List.cons_append, List.cons_append,
                  mergeRef_cons_eq_zero (r1 ++ a) (r2 ++ b) hc hz]
              · rw [hred]
                refine le_trans hc' ?_
                simp only [List.length_cons]
                omega
              · intro hres
                exact hd hres
              · intro _ _ _
                rw [hred]
                refine lt_of_le_of_lt hc' ?_
                simp only [List.length_cons]
                omega
            · have hred : mergeInner cap (fuel + 1) (u1 :: r1) (u2 :: r2) result =
                  mergeInner cap fuel r1 r2 (result ++ [(u1.1, u1.2.1, u1.2.2 + u2.2.2)]) := by
                simp only [mergeInner]
                rw [if_pos hcap]
                simp only [hc]
                rw [if_neg hz]
              obtain ⟨δ', ha, hb, hc', hd, _⟩ :=
                ih r1 r2 (result ++ [(u1.1, u1.2.1, u1.2.2 + u2.2.2)]) (by omega)
              refine ⟨(u1.1, u1.2.1, u1.2.2 + u2.2.2) :: δ', ?_, ?_, ?_, ?_, ?_⟩
              · rw [hred, ha]
                simp
              · intro a b
                rw [hred]
                have : ((u1.1, u1.2.1, u1.2.2 + u2.2.2) :: δ') ++
                    mergeRef ((mergeInner cap fuel r1 r2
                        (result ++ [(u1.1, u1.2.1, u1.2.2 + u2.2.2)])).1 ++ a)
                      ((mergeInner cap fuel r1 r2
                        (result ++ [(u1.1, u1.2.1, u1.2.2 + u2.2.2)])).2.1 ++ b) =
                    (u1.1, u1.2.1, u1.2.2 + u2.2.2) :: (δ' ++
                      mergeRef ((mergeInner cap fuel r1 r2
                          (result ++ [(u1.1, u1.2.1, u1.2.2 + u2.2.2)])).1 ++ a)
                        ((mergeInner cap fuel r1 r2
                          (result ++ [(u1.1, u1.2.1, u1.2.2 + u2.2.2)])).2.1 ++ b)) := by
                  simp
                rw [this, hb a b, List.cons_append, List.cons_append,
                  mergeRef_cons_eq_ne (r1 ++ a) (r2 ++ b) hc hz]
              · rw [hred]
                refine le_trans hc' ?_
                simp only [List.length_cons]
                omega
              · intro hres
                have hstep := hd (by simp only [List.length_append, List.length_cons, List.length_nil]; omega)
                simp only [List.length_append, List.length_cons, List.length_nil] at hstep ⊢
                omega
              · intro _ _ _
                rw [hred]
                refine lt_of_le_of_lt hc' ?_
                simp only [List.length_cons]
                omega
    · refine ⟨[], ?_, ?_, ?_, ?_, ?_⟩ <;>
        simp [mergeInner, if_neg hcap]
      · intro h
        exact absurd h hcap

theorem headD_tail_flatten (l : List (List Update)) :
    l.headD [] ++ l.tail.flatten = l.flatten := by
  cases l <;> simp

theorem totalLen_cons (c : List Update) (rest : List (List Update)) :
    totalLen (c :: rest) = c.length + totalLen rest := by
  simp [totalLen]

theorem mergeOuter_spec (cap : Nat) (hcap : 0 < cap) :
    ∀ (fuel : Nat) (q1 : List Update) (l1 : List (List Update)) (q2 : List Update)
      (l2 : List (List Update)) (result : List Update) (out out' : List (List Update))
      (result' q1' : List Update) (l1' : List (List Update)) (q2' : List Update)
      (l2' : List (List Update)),
      q1.length + q2.length + totalLen l1 + l1.length + totalLen l2 + l2.length < fuel →
      result.length < cap →
      (∀ c ∈ l1, c ≠ []) → (∀ c ∈ l2, c ≠ []) →
      (q1 = [] → l1 = []) → (q2 = [] → l2 = []) →
      mergeOuterF cap fuel q1 l1 q2 l2 result out = (out', result', q1', l1', q2', l2') →
      out'.flatten ++ result' ++ mergeRef (q1' ++ l1'.flatten) (q2' ++ l2'.flatten) =
        out.flatten ++ result ++ mergeRef (q1 ++ l1.flatten) (q2 ++ l2.flatten) ∧
      result'.length < cap ∧
      ((q1' = [] ∧ l1' = []) ∨ (q2' = [] ∧ l2' = [])) := by
  intro fuel
  induction fuel with
  | zero =>
    intro q1 l1 q2 l2 result out out' result' q1' l1' q2' l2' hμ
    exact absurd hμ (Nat.not_lt_zero _)
  | succ fuel ih =>
    intro q1 l1 q2 l2 result out out' result' q1' l1' q2' l2' hμ hres hne1 hne2
      hinv1 hinv2 heq
    by_cases hg : q1 ≠ [] ∧ q2 ≠ []
    · simp only [mergeOuterF] at heq
      rw [if_pos hg] at heq
      obtain ⟨δ, ha, hb, _, hd, hf⟩ :=
        mergeInner_spec cap (q1.length + q2.length) q1 q2 result le_rfl
      set I := mergeInner cap (q1.length + q2.length) q1 q2 result with hI
      set P := (if I.2.2.length = cap then (out ++ [I.2.2], ([] : List Update))
        else (out, I.2.2)) with hP
      set R1 := (if I.1 = [] then (l1.headD [], l1.tail) else (I.1, l1)) with hR1
      set R2 := (if I.2.1 = [] then (l2.headD [], l2.tail) else (I.2.1, l2)) with hR2
      have tail1_ne : ∀ c ∈ l1.tail, c ≠ [] := by
        intro c hc
        cases l1 with
        | nil => simp at hc
        | cons x xs => exact hne1 c (List.mem_cons_of_mem x hc)
      have tail2_ne : ∀ c ∈ l2.tail, c ≠ [] := by
        intro c hc
        cases l2 with
        | nil => simp at hc
        | cons x xs => exact hne2 c (List.mem_cons_of_mem x hc)
      have hPjoin : P.1.flatten ++ P.2 = out.flatten ++ result ++ δ := by
        rw [hP]
        split
        · simp [ha, List.flatten_append]
        · simp [ha]
      have hPlen : P.2.length < cap := by
        rw [hP]
        split
        · simpa using hcap
        · next hne =>
          have hle : I.2.2.length ≤ cap := by
            rw [ha]
            exact hd (le_of_lt hres)
          exact lt_of_le_of_ne hle hne
      have hR1join : R1.1 ++ R1.2.flatten = I.1 ++ l1.flatten := by
        rw [hR1]
        split
        · next h =>
          rw [h]
          simpa using headD_tail_flatten l1
        · rfl
      have hR2join : R2.1 ++ R2.2.flatten = I.2.1 ++ l2.flatten := by
        rw [hR2]
        split
        · next h =>
          rw [h]
          simpa using headD_tail_flatten l2
        · rfl
      have hR1ne : ∀ c ∈ R1.2, c ≠ [] := by
        rw [hR1]
        split
        · exact tail1_ne
        · exact hne1
      have hR2ne : ∀ c ∈ R2.2, c ≠ [] := by
        rw [hR2]
        split
        · exact tail2_ne
        · exact hne2
      have hR1inv : R1.1 = [] → R1.2 = [] := by
        rw [hR1]
        split
        · intro h
          cases l1 with
          | nil => rfl
          | cons x xs => exact absurd (by simpa using h) (hne1 x (by simp))
        · next h =>
          intro h1
          exact absurd h1 h
      have hR2inv : R2.1 = [] → R2.2 = [] := by
        rw [hR2]
        split
        · intro h
          cases l2 with
          | nil => rfl
          | cons x xs => exact absurd (by simpa using h) (hne2 x (by simp))
        · next h =>
          intro h1
          exact absurd h1 h
      have hR1size : R1.1.length + totalLen R1.2 + R1.2.length ≤
          I.1.length + totalLen l1 + l1.length := by
        rw [hR1]
        split
        · cases l1 with
          | nil => simp [totalLen]
          | cons x xs =>
            simp only [List.headD_cons, List.tail_cons, totalLen_cons, List.length_cons]
            omega
        · exact le_refl _
      have hR2size : R2.1.length + totalLen R2.2 + R2.2.length ≤
          I.2.1.length + totalLen l2 + l2.length := by
        rw [hR2]
        split
        · cases l2 with
          | nil => simp [totalLen]
          | cons x xs =>
            simp only [List.headD_cons, List.tail_cons, totalLen_cons, List.length_cons]
            omega
        · exact le_refl _
      have hIlen : I.1.length + I.2.1.length < q1.length + q2.length :=
        hf hres hg.1 hg.2
      have hμ' : R1.1.length + R2.1.length + totalLen R1.2 + R1.2.length +
          totalLen R2.2 + R2.2.length < fuel := by omega
      obtain ⟨ihEq, ihRes, ihExit⟩ :=
        ih R1.1 R1.2 R2.1 R2.2 P.2 P.1 out' result' q1' l1' q2' l2' hμ' hPlen
          hR1ne hR2ne hR1inv hR2inv heq
      refine ⟨?_, ihRes, ihExit⟩
      rw [ihEq, hR1join, hR2join]
      calc P.1.flatten ++ P.2 ++ mergeRef (I.1 ++ l1.flatten) (I.2.1 ++ l2.flatten)
          = out.flatten ++ result ++ δ ++
              mergeRef (I.1 ++ l1.flatten) (I.2.1 ++ l2.flatten) := by rw [hPjoin]
        _ = out.flatten ++ result ++ (δ ++
              mergeRef (I.1 ++ l1.flatten) (I.2.1 ++ l2.flatten)) := by
              simp [List.append_assoc]
        _ = out.flatten ++ result ++ mergeRef (q1 ++ l1.flatten) (q2 ++ l2.flatten) := by
              rw [hb]
    · simp only [mergeOuterF] at heq
      rw [if_neg hg] at heq
      simp only [Prod.mk.injEq] at heq
      obtain ⟨rfl, rfl, rfl, rfl, rfl, rfl⟩ := heq
      refine ⟨rfl, hres, ?_⟩
      rw [not_and_or, not_ne_iff, not_ne_iff] at hg
      rcases hg with h | h
      · exact Or.inl ⟨h, hinv1 h⟩
      · exact Or.inr ⟨h, hinv2 h⟩

theorem flushQueue_spec (cap : Nat) (hcap : 0 < cap) :
    ∀ (fuel : Nat) (head result : List Update) (out out' : List (List Update))
      (result' : List Update),
      head.length < fuel → result.length < cap →
      flushQueueF cap fuel head result out = (out', result') →
      out'.flatten ++ result' = out.flatten ++ result ++ head ∧
      (head ≠ [] → result' = []) ∧ (head = [] → out' = out ∧ result' = result) := by
  intro fuel
  induction fuel with
  | zero =>
    intro head result out out' result' hlen
    exact absurd hlen (Nat.not_lt_zero _)
  | succ fuel ih =>
    intro head result out out' result' hlen hres heq
    by_cases hh : head ≠ []
    · simp only [flushQueueF] at heq
      rw [if_pos hh] at heq
      have hh1 : 0 < head.length := List.length_pos.mpr hh
      have hdlen : (head.drop (cap - result.length)).length < fuel := by
        rw [List.length_drop]
        omega
      obtain ⟨ihj, ihne, ihe⟩ := ih (head.drop (cap - result.length)) []
        (out ++ [result ++ head.take (cap - result.length)]) out' result' hdlen
        (by simpa using hcap) heq
      refine ⟨?_, fun _ => ?_, fun h => absurd h hh⟩
      · rw [ihj]
        simp only [List.flatten_append, List.flatten_cons, List.flatten_nil,
          List.append_nil, List.append_assoc]
        rw [List.take_append_drop]
      · by_cases hd : head.drop (cap - result.length) = []
        · exact (ihe hd).2
        · exact ihne hd
    · rw [not_ne_iff] at hh
      simp only [flushQueueF] at heq
      rw [if_neg (by simp [hh])] at heq
      simp only [Prod.mk.injEq] at heq
      obtain ⟨rfl, rfl⟩ := heq
      exact ⟨by rw [hh]; simp, fun h => absurd hh h, fun _ => ⟨rfl, rfl⟩⟩

theorem mergeChunks_flatten (cap : Nat) (hcap : 0 < cap)
    (list1 list2 : List (List Update))
    (h1 : ∀ c ∈ list1, c ≠ []) (h2 : ∀ c ∈ list2, c ≠ []) :
    (mergeChunks cap list1 list2).flatten = mergeRef list1.flatten list2.flatten := by
  obtain ⟨o, r, a1, b1, a2, b2, hMeq⟩ :
      ∃ o r a1 b1 a2 b2,
        mergeOuterF cap ((list1.headD []).length + (list2.headD []).length +
          totalLen list1.tail + list1.tail.length + totalLen list2.tail +
          list2.tail.length + 1) (list1.headD []) list1.tail (list2.headD [])
          list2.tail [] [] = (o, r, a1, b1, a2, b2) :=
    ⟨_, _, _, _, _, _, rfl⟩
  have tail1_ne : ∀ c ∈ list1.tail, c ≠ [] := by
    intro c hc
    cases list1 with
    | nil => simp at hc
    | cons x xs => exact h1 c (List.mem_cons_of_mem x hc)
  have tail2_ne : ∀ c ∈ list2.tail, c ≠ [] := by
    intro c hc
    cases list2 with
    | nil => simp at hc
    | cons x xs => exact h2 c (List.mem_cons_of_mem x hc)
  have hinv1 : list1.headD [] = [] → list1.tail = [] := by
    cases list1 with
    | nil => exact fun _ => rfl
    | cons x xs =>
      intro h
      exact absurd (by simpa using h) (h1 x (by simp))
  have hinv2 : list2.headD [] = [] → list2.tail = [] := by
    cases list2 with
    | nil => exact fun _ => rfl
    | cons x xs =>
      intro h
      exact absurd (by simpa using h) (h2 x (by simp))
  obtain ⟨hEq, hRes, hExit⟩ :=
    mergeOuter_spec cap hcap _ (list1.headD []) list1.tail (list2.headD [])
      list2.tail [] [] o r a1 b1 a2 b2 (by omega) (by simpa using hcap)
      tail1_ne tail2_ne hinv1 hinv2 hMeq
  rw [headD_tail_flatten list1, headD_tail_flatten list2] at hEq
  simp only [List.flatten_nil, List.nil_append, List.append_nil] at hEq
  obtain ⟨g1, s1, hF1eq⟩ :
      ∃ g1 s1, flushQueueF cap (a1.length + 2) a1 r o = (g1, s1) := ⟨_, _, rfl⟩
  obtain ⟨f1j, f1ne, f1e⟩ :=
    flushQueue_spec cap hcap (a1.length + 2) a1 r o g1 s1 (by omega) hRes hF1eq
  have hs1 : g1.flatten ++ s1 = o.flatten ++ r ++ a1 := f1j
  unfold mergeChunks
  dsimp only
  rw [hMeq]
  dsimp only
  rw [hF1eq]
  dsimp only
  by_cases hps : s1 ≠ []
  · rw [if_pos hps]
    dsimp only
    obtain ⟨g2, s2, hF2eq⟩ :
        ∃ g2 s2, flushQueueF cap (a2.length + 2) a2 []
          ((g1 ++ [s1]) ++ b1) = (g2, s2) := ⟨_, _, rfl⟩
    obtain ⟨f2j, _, _⟩ :=
      flushQueue_spec cap hcap (a2.length + 2) a2 [] ((g1 ++ [s1]) ++ b1) g2 s2
        (by omega) (by simpa using hcap) hF2eq
    rw [hF2eq]
    dsimp only
    have hg2 : g2.flatten ++ s2 =
        g1.flatten ++ s1 ++ b1.flatten ++ a2 := by
      rw [f2j]
      simp [List.flatten_append, List.append_assoc]
    have hs2nil : s2 = [] := by
      by_cases ha2 : a2 = []
      · subst ha2
        obtain ⟨hg2', hs2'⟩ := (flushQueue_spec cap hcap (([] : List Update).length + 2)
          [] [] ((g1 ++ [s1]) ++ b1) g2 s2 (by omega) (by simpa using hcap) hF2eq).2.2 rfl
        exact hs2'
      · exact (flushQueue_spec cap hcap (a2.length + 2) a2 []
          ((g1 ++ [s1]) ++ b1) g2 s2 (by omega) (by simpa using hcap) hF2eq).2.1 ha2
    rw [hs2nil, List.append_nil] at hg2
    rw [List.flatten_append, hg2, hs1]
    rcases hExit with ⟨hq, hl⟩ | ⟨hq, hl⟩
    · subst hq
      subst hl
      simp only [List.flatten_nil, List.nil_append, List.append_nil,
        mergeRef_nil_left] at hEq
      rw [← hEq]
      simp [List.append_assoc]
    · subst hq
      subst hl
      simp only [List.flatten_nil, List.nil_append, List.append_nil,
        mergeRef_nil_right] at hEq
      rw [← hEq]
      simp [List.append_assoc]
  · rw [if_neg hps]
    dsimp only
    rw [not_ne_iff] at hps
    subst hps
    rw [List.append_nil] at hs1
    obtain ⟨g2, s2, hF2eq⟩ :
        ∃ g2 s2, flushQueueF cap (a2.length + 2) a2 [] (g1 ++ b1) = (g2, s2) :=
      ⟨_, _, rfl⟩
    obtain ⟨f2j, f2ne, f2e⟩ :=
      flushQueue_spec cap hcap (a2.length + 2) a2 [] (g1 ++ b1) g2 s2
        (by omega) (by simpa using hcap) hF2eq
    rw [hF2eq]
    dsimp only
    have hg2 : g2.flatten ++ s2 = g1.flatten ++ b1.flatten ++ a2 := by
      rw [f2j]
      simp [List.flatten_append, List.append_assoc]
    have hs2nil : s2 = [] := by
      by_cases ha2 : a2 = []
      · subst ha2
        exact ((f2e rfl).2)
      · exact f2ne ha2
    rw [hs2nil, List.append_nil] at hg2
    rw [List.flatten_append, hg2, hs1]
    rcases hExit with ⟨hq, hl⟩ | ⟨hq, hl⟩
    · subst hq
      subst hl
      simp only [List.flatten_nil, List.nil_append, List.append_nil,
        mergeRef_nil_left] at hEq
      rw [← hEq]
      simp [List.append_assoc]
    · subst hq
      subst hl
      simp only [List.flatten_nil, List.nil_append, List.append_nil,
        mergeRef_nil_right] at hEq
      rw [← hEq]
      simp [List.append_assoc]

theorem keyLt_trans {a b c : Update} (h1 : keyLt a b) (h2 : keyLt b c) :
    keyLt a c := by
  unfold keyLt at *
  omega

theorem cmpU_lt_iff (u v : Update) : cmpU u v = .lt ↔ keyLt u v := by
  unfold cmpU keyLt
  rcases Nat.lt_trichotomy u.1 v.1 with h | h | h
  · rw [(Nat.compare_eq_lt).mpr h]
    simp [Ordering.then, h]
  · rw [(Nat.compare_eq_eq).mpr h]
    simp only [Ordering.then, h]
    simp [Nat.compare_eq_lt]
  · rw [(Nat.compare_eq_gt).mpr h]
    simp only [Ordering.then]
    constructor
    · intro hc
      cases hc
    · intro hc
      omega

theorem cmpU_gt_iff (u v : Update) : cmpU u v = .gt ↔ keyLt v u := by
  unfold cmpU keyLt
  rcases Nat.lt_trichotomy u.1 v.1 with h | h | h
  · rw [(Nat.compare_eq_lt).mpr h]
    simp only [Ordering.then]
    constructor
    · intro hc
      cases hc
    · intro hc
      omega
  · rw [(Nat.compare_eq_eq).mpr h]
    simp only [Ordering.then, h]
    simp [Nat.compare_eq_gt]
  · rw [(Nat.compare_eq_gt).mpr h]
    simp [Ordering.then, h]

theorem cmpU_eq_iff (u v : Update) :
    cmpU u v = .eq ↔ u.1 = v.1 ∧ u.2.1 = v.2.1 := by
  unfold cmpU
  rcases Nat.lt_trichotomy u.1 v.1 with h | h | h
  · rw [(Nat.compare_eq_lt).mpr h]
    simp only [Ordering.then]
    constructor
    · intro hc
      cases hc
    · intro hc
      omega
  · rw [(Nat.compare_eq_eq).mpr h]
    simp only [Ordering.then, h]
    simp [Nat.compare_eq_eq]
  · rw [(Nat.compare_eq_gt).mpr h]
    simp only [Ordering.then]
    constructor
    · intro hc
      cases hc
    · intro hc
      omega

theorem keyLt_congr {k : Update} {u : Update} (d : Int) (h : keyLt k u) :
    keyLt k (u.1, u.2.1, d) := by
  unfold keyLt at *
  simpa using h

theorem mergeRef_lb (k : Update) :
    ∀ (n : Nat) (l1 l2 : List Update), l1.length + l2.length ≤ n →
      (∀ u ∈ l1, keyLt k u) → (∀ u ∈ l2, keyLt k u) →
      ∀ v ∈ mergeRef l1 l2, keyLt k v := by
  intro n
  induction n with
  | zero =>
    intro l1 l2 hn h1 h2 v hv
    have e1 : l1 = [] := by
      cases l1 with
      | nil => rfl
      | cons x xs =>
        simp only [List.length_cons] at hn
        omega
    have e2 : l2 = [] := by
      cases l2 with
      | nil => rfl
      | cons x xs =>
        simp only [List.length_cons] at hn
        omega
    subst e1; subst e2
    rw [mergeRef_nil_left] at hv
    cases hv
  | succ n ih =>
    intro l1 l2 hn h1 h2 v hv
    cases l1 with
    | nil =>
      rw [mergeRef_nil_left] at hv
      exact h2 v hv
    | cons u1 r1 =>
      cases l2 with
      | nil =>
        rw [mergeRef_nil_right] at hv
        exact h1 v hv
      | cons u2 r2 =>
        simp only [List.length_cons] at hn
        cases hc : cmpU u1 u2 with
        | lt =>
          rw [mergeRef_cons_lt r1 r2 hc] at hv
          rcases List.mem_cons.mp hv with rfl | hv
          · exact h1 v (by simp)
          · exact ih r1 (u2 :: r2) (by simp; omega)
              (fun u hu => h1 u (List.mem_cons_of_mem _ hu)) h2 v hv
        | gt =>
          rw [mergeRef_cons_gt r1 r2 hc] at hv
          rcases List.mem_cons.mp hv with rfl | hv
          · exact h2 v (by simp)
          · exact ih (u1 :: r1) r2 (by simp; omega) h1
              (fun u hu => h2 u (List.mem_cons_of_mem _ hu)) v hv
        | eq =>
          by_cases hz : u1.2.2 + u2.2.2 = 0
          · rw [mergeRef_cons_eq_zero r1 r2 hc hz] at hv
            exact ih r1 r2 (by omega)
              (fun u hu => h1 u (List.mem_cons_of_mem _ hu))
              (fun u hu => h2 u (List.mem_cons_of_mem _ hu)) v hv
          · rw [mergeRef_cons_eq_ne r1 r2 hc hz] at hv
            rcases List.mem_cons.mp hv with rfl | hv
            · exact keyLt_congr _ (h1 u1 (by simp))
            · exact ih r1 r2 (by omega)
                (fun u hu => h1 u (List.mem_cons_of_mem _ hu))
                (fun u hu => h2 u (List.mem_cons_of_mem _ hu)) v hv

theorem mergeRef_sorted :
    ∀ (n : Nat) (l1 l2 : List Update), l1.length + l2.length ≤ n →
      sortedU l1 → sortedU l2 → sortedU (mergeRef l1 l2) := by
  intro n
  induction n with
  | zero =>
    intro l1 l2 hn _ _
    have e1 : l1 = [] := by
      cases l1 with
      | nil => rfl
      | cons x xs =>
        simp only [List.length_cons] at hn
        omega
    have e2 : l2 = [] := by
      cases l2 with
      | nil => rfl
      | cons x xs =>
        simp only [List.length_cons] at hn
        omega
    subst e1; subst e2
    rw [mergeRef_nil_left]
    exact List.Pairwise.nil
  | succ n ih =>
    intro l1 l2 hn hs1 hs2
    cases l1 with
    | nil =>
      rw [mergeRef_nil_left]
      exact hs2
    | cons u1 r1 =>
      cases l2 with
      | nil =>
        rw [mergeRef_nil_right]
        exact hs1
      | cons u2 r2 =>
        simp only [List.length_cons] at hn
        obtain ⟨hb1, hp1⟩ := List.pairwise_cons.mp hs1
        obtain ⟨hb2, hp2⟩ := List.pairwise_cons.mp hs2
        cases hc : cmpU u1 u2 with
        | lt =>
          rw [mergeRef_cons_lt r1 r2 hc]
          refine List.pairwise_cons.mpr ⟨?_, ?_⟩
          · refine mergeRef_lb u1 (r1.length + (u2 :: r2).length) r1 (u2 :: r2)
              le_rfl hb1 ?_
            intro u hu
            rcases List.mem_cons.mp hu with rfl | hu
            · exact (cmpU_lt_iff u1 u).mp hc
            · exact keyLt_trans ((cmpU_lt_iff u1 u2).mp hc) (hb2 u hu)
          · exact ih r1 (u2 :: r2) (by simp; omega) hp1 hs2
        | gt =>
          rw [mergeRef_cons_gt r1 r2 hc]
          refine List.pairwise_cons.mpr ⟨?_, ?_⟩
          · refine mergeRef_lb u2 ((u1 :: r1).length + r2.length) (u1 :: r1) r2
              le_rfl ?_ hb2
            intro u hu
            rcases List.mem_cons.mp hu with rfl | hu
            · exact (cmpU_gt_iff u u2).mp hc
            · exact keyLt_trans ((cmpU_gt_iff u1 u2).mp hc) (hb1 u hu)
          · exact ih (u1 :: r1) r2 (by simp; omega) hs1 hp2
        | eq =>
          obtain ⟨hk1, hk2⟩ := (cmpU_eq_iff u1 u2).mp hc
          by_cases hz : u1.2.2 + u2.2.2 = 0
          · rw [mergeRef_cons_eq_zero r1 r2 hc hz]
            exact ih r1 r2 (by omega) hp1 hp2
          · rw [mergeRef_cons_eq_ne r1 r2 hc hz]
            refine List.pairwise_cons.mpr ⟨?_, ?_⟩
            · intro v hv
              have hlb : ∀ u ∈ r1, keyLt u1 u := hb1
              have hlb2 : ∀ u ∈ r2, keyLt u1 u := by
                intro u hu
                have := hb2 u hu
                unfold keyLt at this ⊢
                omega
              have := mergeRef_lb u1 (r1.length + r2.length) r1 r2 le_rfl hlb hlb2 v hv
              unfold keyLt at this ⊢
              simpa using this
            · exact ih r1 r2 (by omega) hp1 hp2

/-- Claim C8 (amended): for every pair of chunk lists whose chunks are
*non-empty*, the batcher's merge produces output chunks whose concatenation is
exactly the reference sorted merge of the two concatenations — entries with the
smaller `(data, time)` key are copied through unchanged (remainders flushed in
bulk), entries with equal keys across the inputs are combined via `plus_equals`
with zero sums dropped — and when each input's concatenation is strictly sorted
by `(data, time)`, so is the output's concatenation.  (The restriction to
non-empty chunks is forced: an empty chunk makes the main loop stop early and
the remaining chunks are emitted unmerged.) -/
theorem merge_refines_consolidated_merge (cap : Nat)
    (list1 list2 : List (List Update)) (hcap : 0 < cap)
    (h1 : ∀ c ∈ list1, c ≠ []) (h2 : ∀ c ∈ list2, c ≠ []) :
    (mergeChunks cap list1 list2).flatten = mergeRef list1.flatten list2.flatten ∧
    (sortedU list1.flatten → sortedU list2.flatten →
      sortedU (mergeChunks cap list1 list2).flatten) := by
  refine ⟨mergeChunks_flatten cap hcap list1 list2 h1 h2, fun hs1 hs2 => ?_⟩
  rw [mergeChunks_flatten cap hcap list1 list2 h1 h2]
  exact mergeRef_sorted (list1.flatten.length + list2.flatten.length)
    list1.flatten list2.flatten le_rfl hs1 hs2

instance (l : List Update) : Decidable (sortedU l) := by
  unfold sortedU
  infer_instance

/-- Two cancelling chunk lists used as the C8 witness. -/
def chunksA : List (List Update) := [[(0, 0, 1), (1, 0, 2)]]

/-- See `chunksA`. -/
def chunksB : List (List Update) := [[(0, 0, -1), (2, 0, 1)]]

/-- Witness for C8 (amended): the `(0,0)` entries cancel and are dropped; the
rest appear in sorted order. -/
theorem merge_refines_consolidated_merge_witness :
    (∀ c ∈ chunksA, c ≠ []) ∧ (∀ c ∈ chunksB, c ≠ []) ∧
    (mergeChunks 4 chunksA chunksB).flatten = [(1, 0, 2), (2, 0, 1)] ∧
    (mergeChunks 4 chunksA chunksB).flatten =
      mergeRef chunksA.flatten chunksB.flatten ∧
    sortedU (mergeChunks 4 chunksA chunksB).flatten :=
  ⟨by decide, by decide, by decide,
    (merge_refines_consolidated_merge 4 chunksA chunksB (by decide)
      (by decide) (by decide)).1,
    (merge_refines_consolidated_merge 4 chunksA chunksB (by decide)
      (by decide) (by decide)).2 (by decide) (by decide)⟩

/-- Claim C8 counterexample: with an empty chunk at the head of the first input
(both inputs sorted by `(data, time)`), the merge emits both `(0,0)` entries
uncombined — the main loop exits immediately and the remaining chunks are
appended unmerged — contradicting the claim that any two input entries with
equal `(data, time)` are combined into one entry via `plus_equals`. -/
theorem merge_empty_chunk_skips_consolidation :
    (mergeChunks 4 [[], [((0 : Nat), (0 : Nat), (1 : Int))]]
        [[((0 : Nat), (0 : Nat), (1 : Int))]]).flatten =
      [(0, 0, 1), (0, 0, 1)] ∧
    mergeRef [((0 : Nat), (0 : Nat), (1 : Int))] [((0 : Nat), (0 : Nat), (1 : Int))] =
      [(0, 0, 2)] ∧
    sortedU ([[], [((0 : Nat), (0 : Nat), (1 : Int))]] : List (List Update)).flatten ∧
    sortedU ([[((0 : Nat), (0 : Nat), (1 : Int))]] : List (List Update)).flatten := by
  refine ⟨by decide, by decide, by decide, by decide⟩
